import Mathlib

/-!
Shallow embedding of the MasterTree data structure (src/src/mastertree.rs):
a randomized balanced sequence tree (treap) with lazy range updates, lazy
reversal, and copy-on-write structural sharing.

The embedding instantiates the MasterManager trait with the additive
manager used by the repository test (tests::add_sum):
  T = i32, Info = (i32, i32) = (subtree sum, pending add),
  Prod = i32, Lazy = i32.
Values are modelled as unbounded Int (the source test manager's i32
arithmetic coincides with Int on every input exercised here; no value in
the concrete scenarios approaches the i32 bounds).  usize is modelled as
Nat; where the source truncating/wrapping behaviour of u64/usize matters
(the random generator, the release-mode length subtraction in split), the
wrap is written explicitly as % 2^64.

The imperative code mutates nodes through reference-counted handles with
copy-on-write; its observable behaviour is a function of the pure node
tree, which is what is embedded: each Rust function that mutates a node
in place becomes a Lean function returning the new tree.
-/

set_option maxHeartbeats 1000000

namespace MasterTreeModel

/-- Mirror of struct Node (mastertree.rs lines 97-104) for the additive
manager: val, info = (sum, pend), idx (left-subtree size), rev flag,
children.  nil stands for Option::None of NodeWrapper. -/
inductive MTree : Type where
  | nil : MTree
  | node (val : Int) (sum pend : Int) (idx : Nat) (rev : Bool)
      (left right : MTree) : MTree
deriving DecidableEq

namespace MTree

/-- Number of elements in the subtree. -/
def count : MTree → Nat
  | .nil => 0
  | .node _ _ _ _ _ l r => count l + 1 + count r

/-- The logical sequence denoted by a subtree: children in order around the
value, the whole reversed if the rev flag is pending, and the pending add
applied to every element. -/
def toList : MTree → List Int
  | .nil => []
  | .node v _ p _ rv l r =>
      (if rv then (toList l ++ v :: toList r).reverse
       else toList l ++ v :: toList r).map (fun x => x + p)

/-- Sum of the denoted sequence. -/
def sumT (t : MTree) : Int := (toList t).sum

/-- info2prod of the stored info (map_or 0 for None, lines 846, 875-877). -/
def infoSum : MTree → Int
  | .nil => 0
  | .node _ s _ _ _ _ _ => s

/-- The additive manager's apply_info performed on a child during
propagate (lines 851-854 and 858-874): sum += pend*len, pend-buffer += p. -/
def pushInfo (t : MTree) (clen : Nat) (p : Int) : MTree :=
  match t with
  | .nil => .nil
  | .node v s q idx rv l r => .node v (s + p * (clen : Int)) (q + p) idx rv l r

/-- Toggling the rev flag of a child (lines 131-136), also the effect of
MasterTree::reverse on the root (line 617). -/
def toggleRev : MTree → MTree
  | .nil => .nil
  | .node v s p idx rv l r => .node v s p idx (!rv) l r

/-- Node::setup (lines 118-140) for the additive manager: propagate the
pending add into the value and both children's info, then realize a
pending reversal (swap children, toggle their rev flags, re-index). -/
def setup (t : MTree) (len : Nat) : MTree :=
  match t with
  | .nil => .nil
  | .node v s p idx rv l r =>
    let v2 := v + p
    let l2 := pushInfo l idx p
    let r2 := pushInfo r (len - 1 - idx) p
    if rv then
      .node v2 s 0 (len - idx - 1) false (toggleRev r2) (toggleRev l2)
    else
      .node v2 s 0 idx false l2 r2

/-- Node::update (lines 142-151) with the additive make_info (lines
840-849): recompute info from the children's stored info; the result has
pending 0.  Every call site runs it on a node just set up, whose rev flag
is false. -/
def updN (v : Int) (idx : Nat) (l r : MTree) : MTree :=
  .node v (infoSum l + v + infoSum r) 0 idx false l r

/-- Structural well-formedness of a reachable subtree: idx caches the left
subtree's size and the stored sum is the sum of the denoted sequence
(children sums, own value, plus the pending add counted once per
element). -/
def wf : MTree → Bool
  | .nil => true
  | .node v s p idx _rv l r =>
      wf l && wf r && decide (idx = count l) &&
        decide (s = sumT l + v + sumT r + p * ((count l : Int) + 1 + (count r : Int)))

@[simp] theorem count_nil : count .nil = 0 := rfl
@[simp] theorem count_node :
    count (.node v s p idx rv l r) = count l + 1 + count r := rfl

@[simp] theorem toList_nil : toList .nil = [] := rfl

theorem toList_node (v s p : Int) (idx : Nat) (rv : Bool) (l r : MTree) :
    toList (.node v s p idx rv l r) =
      (if rv then (toList l ++ v :: toList r).reverse
       else toList l ++ v :: toList r).map (fun x => x + p) := rfl

theorem length_toList (t : MTree) : (toList t).length = count t := by
  induction t with
  | nil => rfl
  | node v s p idx rv l r ihl ihr =>
      cases rv <;> simp [toList, count, ihl, ihr] <;> omega

theorem sum_map_addc (xs : List Int) (p : Int) :
    (xs.map (fun x => x + p)).sum = xs.sum + p * (xs.length : Int) := by
  induction xs with
  | nil => simp
  | cons a xs ih => simp [ih]; ring

theorem map_addc_addc (xs : List Int) (a b : Int) :
    (xs.map (fun x => x + a)).map (fun x => x + b) = xs.map (fun x => x + (a + b)) := by
  rw [List.map_map]
  exact List.map_congr_left (fun x _ => by simp [Function.comp]; ring)

theorem map_add_zero (xs : List Int) : xs.map (fun x => x + (0 : Int)) = xs := by
  simp

theorem sumT_node (v s p : Int) (idx : Nat) (rv : Bool) (l r : MTree) :
    sumT (.node v s p idx rv l r) =
      sumT l + v + sumT r + p * ((count l : Int) + 1 + (count r : Int)) := by
  simp only [sumT, toList_node, sum_map_addc]
  cases rv <;>
    simp [length_toList, List.sum_append, List.sum_reverse] <;> ring

@[simp] theorem sumT_nil : sumT .nil = 0 := rfl

theorem wf_nil : wf .nil = true := rfl

theorem wf_node_iff (v s p : Int) (idx : Nat) (rv : Bool) (l r : MTree) :
    wf (.node v s p idx rv l r) = true ↔
      wf l = true ∧ wf r = true ∧ idx = count l ∧
        s = sumT l + v + sumT r + p * ((count l : Int) + 1 + (count r : Int)) := by
  simp [wf, and_assoc]

theorem infoSum_eq_sumT (t : MTree) (h : wf t = true) : infoSum t = sumT t := by
  cases t with
  | nil => rfl
  | node v s p idx rv l r =>
      rw [wf_node_iff] at h
      rw [sumT_node]
      simpa [infoSum] using h.2.2.2

@[simp] theorem count_pushInfo (t : MTree) (c : Nat) (p : Int) :
    count (pushInfo t c p) = count t := by
  cases t <;> rfl

@[simp] theorem count_toggleRev (t : MTree) :
    count (toggleRev t) = count t := by
  cases t <;> rfl

theorem toList_pushInfo (t : MTree) (c : Nat) (p : Int) :
    toList (pushInfo t c p) = (toList t).map (fun x => x + p) := by
  cases t with
  | nil => rfl
  | node v s q idx rv l r =>
      cases rv <;>
        simp only [pushInfo, toList_node, if_true, if_false,
          Bool.false_eq_true, map_addc_addc]

theorem toList_toggleRev (t : MTree) :
    toList (toggleRev t) = (toList t).reverse := by
  cases t with
  | nil => rfl
  | node v s q idx rv l r =>
      cases rv <;> simp [toggleRev, toList]

@[simp] theorem count_setup (t : MTree) (len : Nat) :
    count (setup t len) = count t := by
  cases t with
  | nil => rfl
  | node v s p idx rv l r =>
      simp only [setup]
      cases rv
      · simp
      · simp
        omega

theorem idfun_comp (f : Int → Int) : ((fun x => x) ∘ f) = f := rfl

theorem toList_setup (t : MTree) (len : Nat) :
    toList (setup t len) = toList t := by
  cases t with
  | nil => rfl
  | node v s p idx rv l r =>
      simp only [setup]
      cases rv with
      | false =>
          simp [toList_node, toList_pushInfo, map_add_zero, List.map_append, idfun_comp,
            Function.comp, idfun_comp]
      | true =>
          simp [toList_node, toList_toggleRev, toList_pushInfo, map_add_zero,
            List.map_append, List.map_reverse, List.reverse_append,
            Function.comp, idfun_comp]

theorem sumT_pushInfo (t : MTree) (c : Nat) (p : Int) :
    sumT (pushInfo t c p) = sumT t + p * (count t : Int) := by
  simp [sumT, toList_pushInfo, sum_map_addc, length_toList]
  ring

theorem sumT_toggleRev (t : MTree) : sumT (toggleRev t) = sumT t := by
  simp [sumT, toList_toggleRev, List.sum_reverse]

theorem wf_pushInfo (t : MTree) (c : Nat) (p : Int) (hw : wf t = true)
    (hc : c = count t) : wf (pushInfo t c p) = true := by
  cases t with
  | nil => rfl
  | node v s q idx rv l r =>
      rw [wf_node_iff] at hw
      obtain ⟨h1, h2, h3, h4⟩ := hw
      rw [pushInfo, wf_node_iff]
      refine ⟨h1, h2, h3, ?_⟩
      subst hc
      rw [h4]
      push_cast [count_node]
      ring

theorem wf_toggleRev (t : MTree) (hw : wf t = true) :
    wf (toggleRev t) = true := by
  cases t with
  | nil => rfl
  | node v s q idx rv l r =>
      rw [wf_node_iff] at hw
      rw [toggleRev, wf_node_iff]
      exact hw

theorem setup_false_eq (v s p : Int) (idx : Nat) (l r : MTree) (len : Nat) :
    setup (.node v s p idx false l r) len =
      .node (v + p) s 0 idx false (pushInfo l idx p)
        (pushInfo r (len - 1 - idx) p) := rfl

theorem setup_true_eq (v s p : Int) (idx : Nat) (l r : MTree) (len : Nat) :
    setup (.node v s p idx true l r) len =
      .node (v + p) s 0 (len - idx - 1) false
        (toggleRev (pushInfo r (len - 1 - idx) p))
        (toggleRev (pushInfo l idx p)) := rfl

theorem wf_setup (t : MTree) (len : Nat) (hw : wf t = true)
    (hlen : len = count t) : wf (setup t len) = true := by
  cases t with
  | nil => rfl
  | node v s p idx rv l r =>
      rw [wf_node_iff] at hw
      obtain ⟨h1, h2, h3, h4⟩ := hw
      have hidx : idx = count l := h3
      have hlen2 : len = count l + 1 + count r := by
        rw [hlen]; simp [count_node]
      have hrlen : len - 1 - idx = count r := by omega
      cases rv with
      | false =>
          rw [setup_false_eq, wf_node_iff]
          refine ⟨wf_pushInfo l idx p h1 hidx,
            wf_pushInfo r (len - 1 - idx) p h2 hrlen, ?_, ?_⟩
          · simp [hidx]
          · rw [sumT_pushInfo, sumT_pushInfo, h4, hidx]
            push_cast
            ring
      | true =>
          rw [setup_true_eq, wf_node_iff]
          refine ⟨wf_toggleRev _ (wf_pushInfo r (len - 1 - idx) p h2 hrlen),
            wf_toggleRev _ (wf_pushInfo l idx p h1 hidx), ?_, ?_⟩
          · simp
            omega
          · simp only [sumT_toggleRev, sumT_pushInfo, count_toggleRev,
              count_pushInfo]
            rw [h4]
            push_cast
            ring

theorem setup_shape (t : MTree) (len : Nat) (v s p : Int) (i : Nat)
    (rv : Bool) (l r : MTree)
    (hs : setup t len = .node v s p i rv l r) : p = 0 ∧ rv = false := by
  cases t with
  | nil => simp [setup] at hs
  | node v0 s0 p0 idx0 rv0 l0 r0 =>
      cases rv0 with
      | false =>
          rw [setup_false_eq] at hs
          obtain ⟨-, -, hp, -, hrv, -, -⟩ := MTree.node.inj hs
          exact ⟨hp.symm, hrv.symm⟩
      | true =>
          rw [setup_true_eq] at hs
          obtain ⟨-, -, hp, -, hrv, -, -⟩ := MTree.node.inj hs
          exact ⟨hp.symm, hrv.symm⟩

/-- The workhorse inversion lemma: everything known about the result of
setting up a well-formed nonempty subtree. -/
theorem setup_node_facts {t : MTree} {len : Nat} {v s p : Int} {i : Nat}
    {rv : Bool} {l r : MTree}
    (hw : wf t = true) (hlen : len = count t)
    (hs : setup t len = .node v s p i rv l r) :
    wf l = true ∧ wf r = true ∧ i = count l ∧
      count t = count l + 1 + count r ∧
      toList t = toList l ++ v :: toList r ∧
      s = sumT l + v + sumT r := by
  obtain ⟨hp, hrv⟩ := setup_shape t len v s p i rv l r hs
  subst hp hrv
  have hwf : wf (setup t len) = true := wf_setup t len hw hlen
  rw [hs, wf_node_iff] at hwf
  obtain ⟨h1, h2, h3, h4⟩ := hwf
  have hcnt : count t = count l + 1 + count r := by
    have := count_setup t len
    rw [hs] at this
    simpa [count_node] using this.symm
  have htl : toList t = toList l ++ v :: toList r := by
    have := toList_setup t len
    rw [hs] at this
    rw [← this, toList_node]
    simp [map_add_zero]
  refine ⟨h1, h2, h3, hcnt, htl, ?_⟩
  rw [h4]; ring

end MTree

/-! ## The pseudo-random generator (mastertree.rs lines 3-44)

State is a u64, modelled as a Nat kept below 2^64. -/

/-- Rng::gen (lines 28-32): two xorshift steps. -/
def rngGen (s : Nat) : Nat :=
  let a := s ^^^ ((s <<< 7) % 2 ^ 64)
  a ^^^ (a >>> 9)

/-- Rng::choose (lines 33-35): true with probability about a/(a+b);
returns the advanced state. -/
def rngChoose (g a b : Nat) : Bool × Nat :=
  let s := rngGen g
  (decide ((s * (a + b)) / 2 ^ 64 < a), s)

/-- Rng::make (lines 37-43): advance once, return (forked generator,
advanced parent state). -/
def rngMake (g : Nat) : Nat × Nat :=
  let s := rngGen g
  let r1 := s ^^^ (s >>> 7)
  (r1 ^^^ ((r1 <<< 9) % 2 ^ 64), s)

/-- The compile-time default seed (Rng::new, lines 7-27): a polynomial
hash of the source file's bytes, forced nonzero. -/
def rngSeed (bytes : List Nat) : Nat :=
  let h := (bytes.foldl
    (fun (pr : Nat × Nat) b =>
      ((pr.1 + pr.2 * b) % 2 ^ 64, (pr.2 * 0xf285692d6bf31f57) % 2 ^ 64))
    (0, 1)).1
  if h = 0 then 0xf285692d6bf31f57 else h

/-- All generator states the structure can ever hold: the default seed,
and closure under gen, choose and both results of make (fork and parent). -/
inductive RngReach (bytes : List Nat) : Nat → Prop where
  | seed : RngReach bytes (rngSeed bytes)
  | genStep {s : Nat} : RngReach bytes s → RngReach bytes (rngGen s)
  | chooseStep {s a b : Nat} : RngReach bytes s →
      RngReach bytes (rngChoose s a b).2
  | makeFork {s : Nat} : RngReach bytes s → RngReach bytes (rngMake s).1
  | makeParent {s : Nat} : RngReach bytes s → RngReach bytes (rngMake s).2

namespace MTree

/-- NodeWrapper::merge (lines 218-245): randomized treap merge.  The
surviving root is set up, its inner child is recursively merged with the
other tree (or replaced by it when absent), and info/idx are rebuilt. -/
def merge (lhs : MTree) (llen : Nat) (rhs : MTree) (rlen : Nat) (g : Nat) :
    MTree × Nat :=
  let c := rngChoose g llen rlen
  if c.1 then
    match hl : setup lhs llen with
    | .nil => (rhs, c.2)
    | .node v _s _p idx _rv l r =>
      match r with
      | .nil => (updN v idx l rhs, c.2)
      | rr =>
        let m := merge rr (llen - 1 - idx) rhs rlen c.2
        (updN v idx l m.1, m.2)
  else
    match hr : setup rhs rlen with
    | .nil => (lhs, c.2)
    | .node v _s _p idx _rv l r =>
      match l with
      | .nil => (updN v (idx + llen) lhs r, c.2)
      | ll =>
        let m := merge lhs llen ll idx c.2
        (updN v (idx + llen) m.1 r, m.2)
termination_by count lhs + count rhs
decreasing_by
  · have h := count_setup lhs llen
    rw [hl] at h
    simp [count_node] at h
    omega
  · have h := count_setup rhs rlen
    rw [hr] at h
    simp [count_node] at h
    omega

/-- NodeWrapper::split (lines 247-276). -/
def splitT (t : MTree) (len index : Nat) : MTree × MTree :=
  match t with
  | .nil => (.nil, .nil)
  | tt =>
    if index = 0 then (.nil, tt)
    else if index = len then (tt, .nil)
    else
      match hs : setup tt len with
      | .nil => (.nil, .nil)
      | .node v _s _p idx _rv l r =>
        if idx < index then
          let pr := splitT r (len - 1 - idx) (index - 1 - idx)
          (updN v idx l pr.1, pr.2)
        else
          let pr := splitT l idx index
          (pr.1, updN v (idx - index) pr.2 r)
termination_by count t
decreasing_by
  · have h := count_setup tt len
    rw [hs] at h
    simp [count_node] at h
    omega
  · have h := count_setup tt len
    rw [hs] at h
    simp [count_node] at h
    omega

/-- NodeWrapper::insert (lines 278-310): with probability 1/(len+1) the
new element becomes the subtree root at the cut (split construction),
otherwise recurse into the child containing the index. -/
def insertT (t : MTree) (len index : Nat) (item : Int) (g : Nat) :
    MTree × Nat :=
  match t with
  | .nil => (.node item item 0 0 false .nil .nil, g)
  | tt =>
    let c := rngChoose g len 1
    if c.1 then
      match hs : setup tt len with
      | .nil => (tt, c.2)
      | .node v _s _p idx _rv l r =>
        if idx < index then
          let m := insertT r (len - 1 - idx) (index - 1 - idx) item c.2
          (updN v idx l m.1, m.2)
        else
          let m := insertT l idx index item c.2
          (updN v (idx + 1) m.1 r, m.2)
    else
      let pr := splitT tt len index
      (.node item (infoSum pr.1 + item + infoSum pr.2) 0 index false pr.1 pr.2,
        c.2)
termination_by count t
decreasing_by
  · have h := count_setup tt len
    rw [hs] at h
    simp [count_node] at h
    omega
  · have h := count_setup tt len
    rw [hs] at h
    simp [count_node] at h
    omega

/-- NodeWrapper::remove (lines 312-347), faithfully including both slips
of the source: the index-below branch does not decrement idx, and the
index-above branch stores the shrunken right subtree in the left child
slot (line 342: node.left = o) leaving the right child empty. -/
def removeT (t : MTree) (len index : Nat) (g : Nat) : Int × MTree × Nat :=
  match hs : setup t len with
  | .nil => (0, .nil, g)
  | .node v _s _p idx _rv l r =>
    if index < idx then
      let m := removeT l idx index g
      (m.1, .node v (infoSum m.2.1 + v + infoSum r) 0 idx false m.2.1 r,
        m.2.2)
    else if index = idx then
      match l, r with
      | .nil, o => (v, o, g)
      | o, .nil => (v, o, g)
      | _, _ =>
        let m := merge l idx r (len - 1 - idx) g
        (v, m.1, m.2)
    else
      let m := removeT r (len - 1 - idx) (index - 1 - idx) g
      (m.1, .node v (infoSum m.2.1 + v + infoSum (.nil)) 0 idx false m.2.1
        .nil, m.2.2)
termination_by count t
decreasing_by
  · have h := count_setup t len
    rw [hs] at h
    simp [count_node] at h
    omega
  · have h := count_setup t len
    rw [hs] at h
    simp [count_node] at h
    omega

/-- NodeWrapper::index (lines 198-216). -/
def indexT (t : MTree) (len index : Nat) : Int :=
  match hs : setup t len with
  | .nil => 0
  | .node v _s _p idx _rv l r =>
    if index < idx then indexT l idx index
    else if index = idx then v
    else indexT r (len - idx - 1) (index - idx - 1)
termination_by count t
decreasing_by
  · have h := count_setup t len
    rw [hs] at h
    simp [count_node] at h
    omega
  · have h := count_setup t len
    rw [hs] at h
    simp [count_node] at h
    omega

/-- In the Greater branch of the prod_left loop, the accumulator after
folding in the fully covered left sibling (if present): lines 368-370. -/
def retPlusL (l : MTree) (idx : Nat) (ret : Int) : Int :=
  match l with
  | .nil => ret
  | _ => ret + infoSum (setup l idx)

/-- The loop body of NodeWrapper::prod_left (lines 358-379); the first
argument is the node the loop variable points at, already set up. -/
def prodLeftGo (t : MTree) (len index : Nat) (ret : Int) : Int :=
  match t with
  | .nil => ret
  | .node v _s _p idx _rv l r =>
    if index < idx then prodLeftGo (setup l idx) idx index ret
    else if index = idx then ret + infoSum (setup l idx)
    else if index = idx + 1 then retPlusL l idx ret + v
    else prodLeftGo (setup r (len - idx - 1)) (len - idx - 1)
      (index - idx - 1) (retPlusL l idx ret + v)
termination_by count t
decreasing_by
  all_goals simp [count_setup]
  all_goals omega

/-- NodeWrapper::prod_left (lines 349-380): prefix aggregate. -/
def prodLeft (t : MTree) (len index : Nat) : Int :=
  if index = 0 then 0
  else
    match setup t len with
    | .nil => 0
    | n => if index = len then infoSum n else prodLeftGo n len index 0

/-- In the first branch of the prod_right loop, the accumulator after
folding in the fully covered right sibling (if present): lines 392-395. -/
def retPlusR (r : MTree) (rlen : Nat) (ret : Int) : Int :=
  match r with
  | .nil => ret
  | _ => infoSum (setup r rlen) + ret

/-- The loop body of NodeWrapper::prod_right (lines 390-412). -/
def prodRightGo (t : MTree) (len index : Nat) (ret : Int) : Int :=
  match t with
  | .nil => ret
  | .node v _s _p idx _rv l r =>
    if index ≤ idx then
      if index = idx then v + retPlusR r (len - idx - 1) ret
      else prodRightGo (setup l idx) idx index
        (v + retPlusR r (len - idx - 1) ret)
    else if index = idx + 1 then infoSum (setup r (len - idx - 1)) + ret
    else prodRightGo (setup r (len - idx - 1)) (len - idx - 1)
      (index - idx - 1) ret
termination_by count t
decreasing_by
  all_goals simp [count_setup]
  all_goals omega

/-- NodeWrapper::prod_right (lines 382-413): suffix aggregate. -/
def prodRight (t : MTree) (len index : Nat) : Int :=
  if index = len then 0
  else
    match setup t len with
    | .nil => 0
    | n => if index = 0 then infoSum n else prodRightGo n len index 0

/-- The loop of MasterTree::prod (lines 710-742), after range
normalization, on a nonempty range. -/
def prodGo (t : MTree) (len a b : Nat) : Int :=
  if a = 0 ∧ b = len then infoSum (setup t len)
  else if a = 0 then prodLeft t len b
  else if b = len then prodRight t len a
  else
    match hs : setup t len with
    | .nil => 0
    | .node v _s _p idx _rv l r =>
      if a ≤ idx ∧ b ≤ idx then prodGo l idx a b
      else if idx < a ∧ idx < b then
        prodGo r (len - idx - 1) (a - idx - 1) (b - idx - 1)
      else
        (prodRight l idx a + v) + prodLeft r (len - idx - 1) (b - idx - 1)
termination_by count t
decreasing_by
  · have h := count_setup t len
    rw [hs] at h
    simp [count_node] at h
    omega
  · have h := count_setup t len
    rw [hs] at h
    simp [count_node] at h
    omega

/-- NodeWrapper::apply_left (lines 415-443): lazy-apply to the prefix
of the subtree of the given length.  pushInfo is exactly the additive
manager's apply_info on a subtree root. -/
def applyLeft (t : MTree) (len index : Nat) (lz : Int) : MTree :=
  if index = 0 then t
  else if index = len then pushInfo t len lz
  else
    match hs : setup t len with
    | .nil => .nil
    | .node v _s _p idx _rv l r =>
      if index ≤ idx then updN v idx (applyLeft l idx index lz) r
      else
        updN (v + lz) idx (pushInfo l idx lz)
          (applyLeft r (len - idx - 1) (index - idx - 1) lz)
termination_by count t
decreasing_by
  · have h := count_setup t len
    rw [hs] at h
    simp [count_node] at h
    omega
  · have h := count_setup t len
    rw [hs] at h
    simp [count_node] at h
    omega

/-- NodeWrapper::apply_right (lines 445-473): lazy-apply to the suffix
starting at the given index. -/
def applyRight (t : MTree) (len index : Nat) (lz : Int) : MTree :=
  if index = 0 then pushInfo t len lz
  else if index = len then t
  else
    match hs : setup t len with
    | .nil => .nil
    | .node v _s _p idx _rv l r =>
      if idx + 1 < index then
        updN v idx l (applyRight r (len - idx - 1) (index - idx - 1) lz)
      else
        if index ≤ idx then
          updN (v + lz) idx
            (if index < idx then applyRight l idx index lz else l)
            (pushInfo r (len - idx - 1) lz)
        else updN v idx l (pushInfo r (len - idx - 1) lz)
termination_by count t
decreasing_by
  · have h := count_setup t len
    rw [hs] at h
    simp [count_node] at h
    omega
  · have h := count_setup t len
    rw [hs] at h
    simp [count_node] at h
    omega

/-- NodeWrapper::apply (lines 475-506): lazy-apply to a general inner
range.  Both boundary delegations happen before any setup, as in the
source. -/
def applyT (t : MTree) (len a b : Nat) (lz : Int) : MTree :=
  if a = 0 then applyLeft t len b lz
  else if b = len then applyRight t len a lz
  else
    match hs : setup t len with
    | .nil => .nil
    | .node v _s _p idx _rv l r =>
      if a ≤ idx ∧ b ≤ idx then updN v idx (applyT l idx a b lz) r
      else if idx < a ∧ idx < b then
        updN v idx l (applyT r (len - idx - 1) (a - idx - 1) (b - idx - 1) lz)
      else
        updN (v + lz) idx (applyRight l idx a lz)
          (applyLeft r (len - idx - 1) (b - idx - 1) lz)
termination_by count t
decreasing_by
  · have h := count_setup t len
    rw [hs] at h
    simp [count_node] at h
    omega
  · have h := count_setup t len
    rw [hs] at h
    simp [count_node] at h
    omega

theorem setup_eq_nil_iff (t : MTree) (len : Nat) :
    setup t len = .nil ↔ t = .nil := by
  cases t with
  | nil => simp [setup]
  | node v s p idx rv l r =>
      cases rv with
      | false => rw [setup_false_eq]; simp
      | true => rw [setup_true_eq]; simp

theorem indexT_node {t : MTree} {len : Nat} {v s p : Int} {idx : Nat}
    {rv : Bool} {l r : MTree} (i : Nat)
    (hs : setup t len = .node v s p idx rv l r) :
    indexT t len i = if i < idx then indexT l idx i
      else if i = idx then v else indexT r (len - idx - 1) (i - idx - 1) := by
  rw [indexT]
  split
  next heq => rw [hs] at heq; cases heq
  next v2 s2 p2 i2 rv2 l2 r2 heq =>
    rw [hs] at heq
    cases heq
    rfl

/-- The index operator reads exactly the denoted sequence. -/
theorem indexT_correct (t : MTree) (len i : Nat) (hw : wf t = true)
    (hlen : len = count t) (hi : i < count t) :
    indexT t len i = (toList t).getD i 0 := by
  induction t, len, i using indexT.induct with
  | case1 t len i hnil =>
      rw [setup_eq_nil_iff] at hnil
      subst hnil
      simp [count] at hi
  | case2 t len i v s p idx rv l r hs hlt ih =>
      obtain ⟨hwl, hwr, hidx, hcnt, htl, hsval⟩ := setup_node_facts hw hlen hs
      rw [indexT_node i hs, if_pos hlt, htl,
        List.getD_append _ _ _ _ (by rw [length_toList]; omega)]
      exact ih hwl hidx (by omega)
  | case3 t len v s p idx rv l r hs hlt =>
      obtain ⟨hwl, hwr, hidx, hcnt, htl, hsval⟩ := setup_node_facts hw hlen hs
      rw [indexT_node idx hs, if_neg hlt, if_pos rfl, htl,
        List.getD_append_right _ _ _ _ (by rw [length_toList]; omega)]
      simp [length_toList, hidx]
  | case4 t len i v s p idx rv l r hs hlt hne ih =>
      obtain ⟨hwl, hwr, hidx, hcnt, htl, hsval⟩ := setup_node_facts hw hlen hs
      rw [indexT_node i hs, if_neg hlt, if_neg hne, htl,
        List.getD_append_right _ _ _ _ (by rw [length_toList]; omega)]
      rw [length_toList, ← hidx]
      have hgt : idx < i := by omega
      rw [show i - idx = (i - idx - 1) + 1 by omega]
      simp only [List.getD_cons_succ]
      exact ih hwr (by omega) (by omega)

theorem toList_updN (v : Int) (idx : Nat) (l r : MTree) :
    toList (updN v idx l r) = toList l ++ v :: toList r := by
  simp [updN, toList_node, map_add_zero]

theorem count_updN (v : Int) (idx : Nat) (l r : MTree) :
    count (updN v idx l r) = count l + 1 + count r := rfl

theorem wf_updN (v : Int) (idx : Nat) (l r : MTree) (hwl : wf l = true)
    (hwr : wf r = true) (hidx : idx = count l) :
    wf (updN v idx l r) = true := by
  rw [updN, wf_node_iff]
  refine ⟨hwl, hwr, hidx, ?_⟩
  rw [infoSum_eq_sumT l hwl, infoSum_eq_sumT r hwr]
  ring

theorem sumT_updN (v : Int) (idx : Nat) (l r : MTree) :
    sumT (updN v idx l r) = sumT l + v + sumT r := by
  rw [updN, sumT_node]; ring

theorem splitT_unfold {t : MTree} {len : Nat} {v s p : Int} {idx : Nat}
    {rv : Bool} {l r : MTree} (index : Nat)
    (hs : setup t len = .node v s p idx rv l r) :
    splitT t len index =
      if index = 0 then (.nil, t)
      else if index = len then (t, .nil)
      else if idx < index then
        (updN v idx l (splitT r (len - 1 - idx) (index - 1 - idx)).1,
         (splitT r (len - 1 - idx) (index - 1 - idx)).2)
      else
        ((splitT l idx index).1, updN v (idx - index) (splitT l idx index).2 r) := by
  cases t with
  | nil => simp [setup] at hs
  | node v0 s0 p0 idx0 rv0 l0 r0 =>
      rw [splitT]
      split
      · rfl
      · split
        · rfl
        · split
          next heq => rw [hs] at heq; cases heq
          next v2 s2 p2 i2 rv2 l2 r2 heq =>
            rw [hs] at heq
            cases heq
            rfl
      · intro h; cases h

theorem splitT_zero (t : MTree) (len : Nat) : splitT t len 0 = (.nil, t) := by
  cases t with
  | nil => rw [splitT]
  | node v0 s0 p0 idx0 rv0 l0 r0 =>
      rw [splitT]
      split
      · rfl
      · next h => exact absurd rfl h
      · intro h; cases h

theorem splitT_full (t : MTree) (len : Nat) (h0 : len ≠ 0) :
    splitT t len len = (t, .nil) := by
  cases t with
  | nil => rw [splitT]
  | node v0 s0 p0 idx0 rv0 l0 r0 =>
      rw [splitT]
      split
      · exact absurd (by assumption) h0
      · rw [if_pos rfl]
      · intro h; cases h

/-- NodeWrapper::split cuts the denoted sequence at the index: the parts
denote the take/drop halves and stay well-formed. -/
theorem splitT_spec (t : MTree) (len index : Nat) :
    wf t = true → len = count t → index ≤ count t →
    toList (splitT t len index).1 = (toList t).take index ∧
    toList (splitT t len index).2 = (toList t).drop index ∧
    wf (splitT t len index).1 = true ∧
    wf (splitT t len index).2 = true ∧
    count (splitT t len index).1 = index ∧
    count (splitT t len index).2 = count t - index := by
  induction t, len, index using splitT.induct with
  | case1 len index =>
      intro _hw _hlen hle
      simp [count] at hle
      subst hle
      rw [splitT]
      simp [wf]
  | case2 len tt _hne =>
      intro hw _hlen _hle
      rw [splitT_zero]
      exact ⟨by simp, by simp, rfl, hw, rfl, by simp⟩
  | case3 index tt _hne h0 =>
      intro hw hlen _hle
      rw [splitT_full tt index (by omega)]
      refine ⟨?_, ?_, hw, rfl, hlen.symm, by show (0 : Nat) = count tt - index; omega⟩
      · rw [hlen, ← length_toList, List.take_length]
      · show ([] : List Int) = (toList tt).drop index
        rw [hlen, ← length_toList, List.drop_length]
  | case4 len index tt hne h0 hl hnil =>
      rw [setup_eq_nil_iff] at hnil
      exact absurd hnil (fun h => hne h)
  | case5 len index tt _hne h0 hlen0 v s p idx rv l r hs hlt ih =>
      intro hw hlen hle
      obtain ⟨hwl, hwr, hidx, hcnt, htl, _hsv⟩ := setup_node_facts hw hlen hs
      have hlenl : (toList l).length = idx := by rw [length_toList, hidx]
      obtain ⟨ih1, ih2, ih3, ih4, ih5, ih6⟩ := ih hwr (by omega) (by omega)
      rw [splitT_unfold index hs, if_neg h0, if_neg hlen0, if_pos hlt]
      refine ⟨?_, ?_, wf_updN v idx l _ hwl ih3 hidx, ih4, ?_, ?_⟩
      · have htake : (toList l).take index = toList l :=
          List.take_of_length_le (by omega)
        rw [toList_updN, ih1, htl, List.take_append_eq_append_take, htake,
          hlenl, show index - idx = (index - 1 - idx) + 1 from by omega,
          List.take_succ_cons]
      · have hdrop : (toList l).drop index = [] :=
          List.drop_eq_nil_of_le (by omega)
        rw [ih2, htl, List.drop_append_eq_append_drop, hdrop, hlenl,
          show index - idx = (index - 1 - idx) + 1 from by omega,
          List.drop_succ_cons, List.nil_append]
      · rw [count_updN, ih5]
        omega
      · rw [ih6]
        omega
  | case6 len index tt _hne h0 hlen0 v s p idx rv l r hs hge ih =>
      intro hw hlen hle
      obtain ⟨hwl, hwr, hidx, hcnt, htl, _hsv⟩ := setup_node_facts hw hlen hs
      have hlenl : (toList l).length = idx := by rw [length_toList, hidx]
      obtain ⟨ih1, ih2, ih3, ih4, ih5, ih6⟩ := ih hwl hidx (by omega)
      rw [splitT_unfold index hs, if_neg h0, if_neg hlen0, if_neg hge]
      refine ⟨?_, ?_, ih3, wf_updN v (idx - index) _ r ih4 hwr (by omega), ?_, ?_⟩
      · rw [ih1, htl, List.take_append_eq_append_take, hlenl,
          show index - idx = 0 from by omega, List.take_zero, List.append_nil]
      · rw [toList_updN, ih2, htl, List.drop_append_eq_append_drop, hlenl,
          show index - idx = 0 from by omega, List.drop_zero]
      · exact ih5
      · rw [count_updN, ih6]
        omega

theorem merge_lhs_nil {lhs : MTree} {llen : Nat} (rhs : MTree)
    (rlen g : Nat) (hc : (rngChoose g llen rlen).1 = true)
    (hl : setup lhs llen = .nil) :
    merge lhs llen rhs rlen g = (rhs, (rngChoose g llen rlen).2) := by
  rw [merge, if_pos hc]
  split
  next heq => rfl
  next v2 s2 p2 i2 rv2 l2 r2 heq => rw [hl] at heq; cases heq

theorem merge_left_last {lhs : MTree} {llen : Nat} (rhs : MTree)
    (rlen g : Nat) {v s p : Int} {idx : Nat} {rv : Bool} {l : MTree}
    (hc : (rngChoose g llen rlen).1 = true)
    (hl : setup lhs llen = .node v s p idx rv l .nil) :
    merge lhs llen rhs rlen g = (updN v idx l rhs, (rngChoose g llen rlen).2) := by
  rw [merge, if_pos hc]
  split
  next heq => rw [hl] at heq; cases heq
  next v2 s2 p2 i2 rv2 l2 r2 heq =>
    rw [hl] at heq
    cases heq
    rfl

theorem merge_left_step {lhs : MTree} {llen : Nat} (rhs : MTree)
    (rlen g : Nat) {v s p : Int} {idx : Nat} {rv : Bool} {l r : MTree}
    (hc : (rngChoose g llen rlen).1 = true)
    (hl : setup lhs llen = .node v s p idx rv l r) (hrne : r ≠ .nil) :
    merge lhs llen rhs rlen g =
      (updN v idx l
          (merge r (llen - 1 - idx) rhs rlen (rngChoose g llen rlen).2).1,
        (merge r (llen - 1 - idx) rhs rlen (rngChoose g llen rlen).2).2) := by
  rw [merge, if_pos hc]
  split
  next heq => rw [hl] at heq; cases heq
  next v2 s2 p2 i2 rv2 l2 r2 heq =>
    rw [hl] at heq
    cases heq
    split
    next => exact absurd rfl hrne
    next => rfl

theorem merge_rhs_nil (lhs : MTree) (llen : Nat) {rhs : MTree} {rlen : Nat}
    (g : Nat) (hc : ¬ (rngChoose g llen rlen).1 = true)
    (hr : setup rhs rlen = .nil) :
    merge lhs llen rhs rlen g = (lhs, (rngChoose g llen rlen).2) := by
  rw [merge, if_neg hc]
  split
  next heq => rfl
  next v2 s2 p2 i2 rv2 l2 r2 heq => rw [hr] at heq; cases heq

theorem merge_right_last (lhs : MTree) (llen : Nat) {rhs : MTree}
    {rlen : Nat} (g : Nat) {v s p : Int} {idx : Nat} {rv : Bool} {r : MTree}
    (hc : ¬ (rngChoose g llen rlen).1 = true)
    (hr : setup rhs rlen = .node v s p idx rv .nil r) :
    merge lhs llen rhs rlen g =
      (updN v (idx + llen) lhs r, (rngChoose g llen rlen).2) := by
  rw [merge, if_neg hc]
  split
  next heq => rw [hr] at heq; cases heq
  next v2 s2 p2 i2 rv2 l2 r2 heq =>
    rw [hr] at heq
    cases heq
    rfl

theorem merge_right_step (lhs : MTree) (llen : Nat) {rhs : MTree}
    {rlen : Nat} (g : Nat) {v s p : Int} {idx : Nat} {rv : Bool} {l r : MTree}
    (hc : ¬ (rngChoose g llen rlen).1 = true)
    (hr : setup rhs rlen = .node v s p idx rv l r) (hlne : l ≠ .nil) :
    merge lhs llen rhs rlen g =
      (updN v (idx + llen)
          (merge lhs llen l idx (rngChoose g llen rlen).2).1 r,
        (merge lhs llen l idx (rngChoose g llen rlen).2).2) := by
  rw [merge, if_neg hc]
  split
  next heq => rw [hr] at heq; cases heq
  next v2 s2 p2 i2 rv2 l2 r2 heq =>
    rw [hr] at heq
    cases heq
    split
    next => exact absurd rfl hlne
    next => rfl

/-- NodeWrapper::merge concatenates the two denoted sequences, whatever
the generator decides, and preserves well-formedness. -/
theorem merge_spec (lhs : MTree) (llen : Nat) (rhs : MTree) (rlen g : Nat) :
    wf lhs = true → wf rhs = true → llen = count lhs → rlen = count rhs →
    toList (merge lhs llen rhs rlen g).1 = toList lhs ++ toList rhs ∧
    wf (merge lhs llen rhs rlen g).1 = true ∧
    count (merge lhs llen rhs rlen g).1 = count lhs + count rhs := by
  induction lhs, llen, rhs, rlen, g using merge.induct with
  | case1 lhs llen rhs rlen g c hc hl =>
      intro hwl hwr _hll _hrl
      rw [setup_eq_nil_iff] at hl
      subst hl
      rw [merge_lhs_nil rhs rlen g hc (by rw [setup_eq_nil_iff])]
      exact ⟨by simp, hwr, by simp [count]⟩
  | case2 lhs llen rhs rlen g c hc v s p idx rv l hl _hl2 =>
      intro hwl hwr hll hrl
      obtain ⟨hw1, _hw2, hidx, hcnt, htl, _hsv⟩ :=
        setup_node_facts hwl hll hl
      rw [merge_left_last rhs rlen g hc hl]
      refine ⟨?_, wf_updN v idx l rhs hw1 hwr hidx, ?_⟩
      · rw [toList_updN, htl]
        simp
      · rw [count_updN]
        simp [count] at hcnt
        omega
  | case3 lhs llen rhs rlen g c hc v s p idx rv l rr hl hexcl _hl2 ih =>
      intro hwl hwr hll hrl
      have hrne : rr ≠ .nil := by
        intro hrr
        subst hrr
        exact hexcl hl rfl HEq.rfl
      obtain ⟨hw1, hw2, hidx, hcnt, htl, _hsv⟩ :=
        setup_node_facts hwl hll hl
      obtain ⟨ih1, ih2, ih3⟩ := ih hw2 hwr (by omega) hrl
      rw [merge_left_step rhs rlen g hc hl hrne]
      simp only [show (rngChoose g llen rlen).2 = c.2 from rfl]
      refine ⟨?_, wf_updN v idx l _ hw1 ih2 hidx, ?_⟩
      · rw [toList_updN, ih1, htl]
        simp
      · rw [count_updN, ih3]
        omega
  | case4 lhs llen rhs rlen g c hc hr =>
      intro hwl hwr _hll _hrl
      rw [setup_eq_nil_iff] at hr
      subst hr
      rw [merge_rhs_nil lhs llen g hc (by rw [setup_eq_nil_iff])]
      exact ⟨by simp, hwl, by simp [count]⟩
  | case5 lhs llen rhs rlen g c hc v s p idx rv r hr _hr2 =>
      intro hwl hwr hll hrl
      obtain ⟨_hw1, hw2, hidx, hcnt, htl, _hsv⟩ :=
        setup_node_facts hwr hrl hr
      rw [merge_right_last lhs llen g hc hr]
      refine ⟨?_, wf_updN v (idx + llen) lhs r hwl hw2 (by simp [count] at hidx; omega),
        ?_⟩
      · rw [toList_updN, htl]
        simp
      · rw [count_updN]
        simp [count] at hcnt
        omega
  | case6 lhs llen rhs rlen g c hc v s p idx rv r ll hr hexcl _hr2 ih =>
      intro hwl hwr hll hrl
      have hlne : ll ≠ .nil := by
        intro hll2
        subst hll2
        exact hexcl hr rfl HEq.rfl
      obtain ⟨hw1, hw2, hidx, hcnt, htl, _hsv⟩ :=
        setup_node_facts hwr hrl hr
      obtain ⟨ih1, ih2, ih3⟩ := ih hwl hw1 hll hidx
      rw [merge_right_step lhs llen g hc hr hlne]
      simp only [show (rngChoose g llen rlen).2 = c.2 from rfl]
      refine ⟨?_, wf_updN v (idx + llen) _ r ih2 hw2 (by omega), ?_⟩
      · rw [toList_updN, ih1, htl]
        simp
      · rw [count_updN, ih3]
        omega

/-- Insertion into a plain list at a position. -/
def insertAt (n : Nat) (x : Int) (xs : List Int) : List Int :=
  xs.take n ++ x :: xs.drop n

theorem insertAt_append_left (A B : List Int) (v item : Int) (index : Nat)
    (h : index ≤ A.length) :
    insertAt index item (A ++ v :: B) = insertAt index item A ++ v :: B := by
  unfold insertAt
  rw [List.take_append_eq_append_take, List.drop_append_eq_append_drop,
    show index - A.length = 0 from by omega, List.take_zero, List.drop_zero,
    List.append_nil]
  simp

theorem insertAt_append_right (A B : List Int) (v item : Int) (index : Nat)
    (h : A.length < index) :
    insertAt index item (A ++ v :: B) =
      A ++ v :: insertAt (index - A.length - 1) item B := by
  unfold insertAt
  rw [List.take_append_eq_append_take, List.drop_append_eq_append_drop,
    List.take_of_length_le (by omega), List.drop_eq_nil_of_le (by omega),
    show index - A.length = (index - A.length - 1) + 1 from by omega,
    List.take_succ_cons, List.drop_succ_cons, List.nil_append]
  simp

theorem insertT_nil (len index : Nat) (item : Int) (g : Nat) :
    insertT .nil len index item g =
      (.node item item 0 0 false .nil .nil, g) := by
  rw [insertT]

theorem insertT_unfold {t : MTree} {len : Nat} (index : Nat) (item : Int)
    (g : Nat) {v s p : Int} {idx : Nat} {rv : Bool} {l r : MTree}
    (hs : setup t len = .node v s p idx rv l r) :
    insertT t len index item g =
      if (rngChoose g len 1).1 = true then
        if idx < index then
          (updN v idx l
              (insertT r (len - 1 - idx) (index - 1 - idx) item
                (rngChoose g len 1).2).1,
            (insertT r (len - 1 - idx) (index - 1 - idx) item
              (rngChoose g len 1).2).2)
        else
          (updN v (idx + 1)
              (insertT l idx index item (rngChoose g len 1).2).1 r,
            (insertT l idx index item (rngChoose g len 1).2).2)
      else
        (.node item
            (infoSum (splitT t len index).1 + item +
              infoSum (splitT t len index).2) 0 index false
            (splitT t len index).1 (splitT t len index).2,
          (rngChoose g len 1).2) := by
  cases t with
  | nil => simp [setup] at hs
  | node v0 s0 p0 idx0 rv0 l0 r0 =>
      rw [insertT]
      split
      · split
        next heq => rw [hs] at heq; cases heq
        next v2 s2 p2 i2 rv2 l2 r2 heq =>
          rw [hs] at heq
          cases heq
          rfl
      · rfl
      · intro h; cases h

/-- NodeWrapper::insert places the item at the index of the denoted
sequence, for every generator state, preserving well-formedness. -/
theorem insertT_spec (t : MTree) (len index : Nat) (item : Int) (g : Nat) :
    wf t = true → len = count t → index ≤ count t →
    toList (insertT t len index item g).1 = insertAt index item (toList t) ∧
    wf (insertT t len index item g).1 = true ∧
    count (insertT t len index item g).1 = count t + 1 := by
  induction t, len, index, item, g using insertT.induct with
  | case1 len index item g =>
      intro _hw _hlen hle
      rw [insertT_nil]
      simp [count] at hle
      subst hle
      refine ⟨by simp [toList, insertAt], ?_, rfl⟩
      rw [wf_node_iff]
      exact ⟨rfl, rfl, rfl, by simp [sumT, toList]⟩
  | case2 len index item g tt hne c hc hnil =>
      intro _hw _hlen _hle
      rw [setup_eq_nil_iff] at hnil
      exact absurd hnil (fun h => hne h)
  | case3 len index item g tt hne c hc v s p idx rv l r hs hlt ih =>
      intro hw hlen hle
      obtain ⟨hwl, hwr, hidx, hcnt, htl, _hsv⟩ := setup_node_facts hw hlen hs
      have hlenl : (toList l).length = idx := by rw [length_toList, hidx]
      obtain ⟨ih1, ih2, ih3⟩ := ih hwr (by omega) (by omega)
      rw [insertT_unfold index item g hs, if_pos hc]
      rw [if_pos hlt]
      simp only [show (rngChoose g len 1).2 = c.2 from rfl]
      refine ⟨?_, wf_updN v idx l _ hwl ih2 hidx, ?_⟩
      · rw [toList_updN, ih1, htl, insertAt_append_right _ _ _ _ _ (by omega),
          hlenl, show index - idx - 1 = index - 1 - idx from by omega]
      · rw [count_updN, ih3]
        omega
  | case4 len index item g tt hne c hc v s p idx rv l r hs hge ih =>
      intro hw hlen hle
      obtain ⟨hwl, hwr, hidx, hcnt, htl, _hsv⟩ := setup_node_facts hw hlen hs
      have hlenl : (toList l).length = idx := by rw [length_toList, hidx]
      obtain ⟨ih1, ih2, ih3⟩ := ih hwl hidx (by omega)
      rw [insertT_unfold index item g hs, if_pos hc]
      rw [if_neg hge]
      simp only [show (rngChoose g len 1).2 = c.2 from rfl]
      refine ⟨?_, wf_updN v (idx + 1) _ r ih2 hwr (by omega), ?_⟩
      · rw [toList_updN, ih1, htl, insertAt_append_left _ _ _ _ _ (by omega)]
      · rw [count_updN, ih3]
        omega
  | case5 len index item g tt hne c hc =>
      intro hw hlen hle
      obtain ⟨hsp1, hsp2, hsp3, hsp4, hsp5, hsp6⟩ :=
        splitT_spec tt len index hw hlen hle
      cases hsn : setup tt len with
      | nil =>
          rw [setup_eq_nil_iff] at hsn
          exact absurd hsn (fun h => hne h)
      | node v s p idx rv l r =>
          rw [insertT_unfold index item g hsn, if_neg hc]
          refine ⟨?_, ?_, ?_⟩
          · rw [toList_node, if_neg (by simp), map_add_zero, hsp1, hsp2]
            rfl
          · rw [wf_node_iff]
            refine ⟨hsp3, hsp4, hsp5.symm, ?_⟩
            rw [infoSum_eq_sumT _ hsp3, infoSum_eq_sumT _ hsp4]
            ring
          · simp only [count_node, hsp5, hsp6]
            omega

theorem infoSum_setup (t : MTree) (len : Nat) :
    infoSum (setup t len) = infoSum t := by
  cases t with
  | nil => rfl
  | node v s p idx rv l r => cases rv <;> rfl

/-- The pending-add component of a node's info. -/
def pendOf : MTree → Int
  | .nil => 0
  | .node _ _ p _ _ _ _ => p

/-- The pending-reversal flag of a node. -/
def revOf : MTree → Bool
  | .nil => false
  | .node _ _ _ _ rv _ _ => rv

theorem pendOf_setup (t : MTree) (len : Nat) : pendOf (setup t len) = 0 := by
  cases t with
  | nil => rfl
  | node v s p idx rv l r => cases rv <;> rfl

theorem revOf_setup (t : MTree) (len : Nat) : revOf (setup t len) = false := by
  cases t with
  | nil => rfl
  | node v s p idx rv l r => cases rv <;> rfl

theorem toList_flat {v s p : Int} {idx : Nat} {rv : Bool} {l r : MTree}
    (hp : pendOf (.node v s p idx rv l r) = 0)
    (hr : revOf (.node v s p idx rv l r) = false) :
    toList (.node v s p idx rv l r) = toList l ++ v :: toList r := by
  rw [pendOf] at hp
  rw [revOf] at hr
  subst hp hr
  rw [toList_node, if_neg (by simp), map_add_zero]

theorem retPlusL_eq (l : MTree) (idx : Nat) (ret : Int)
    (hwl : wf l = true) : retPlusL l idx ret = ret + sumT l := by
  cases l with
  | nil => simp [retPlusL]
  | node v s p i rv a b =>
      have hu : retPlusL (.node v s p i rv a b) idx ret =
          ret + infoSum (setup (.node v s p i rv a b) idx) := rfl
      rw [hu, infoSum_setup, infoSum_eq_sumT _ hwl]

theorem retPlusR_eq (r : MTree) (rlen : Nat) (ret : Int)
    (hwr : wf r = true) : retPlusR r rlen ret = sumT r + ret := by
  cases r with
  | nil => simp [retPlusR]
  | node v s p i rv a b =>
      have hu : retPlusR (.node v s p i rv a b) rlen ret =
          infoSum (setup (.node v s p i rv a b) rlen) + ret := rfl
      rw [hu, infoSum_setup, infoSum_eq_sumT _ hwr]

/-- The prod_left loop: starting from an already-set-up node with ret
accumulated, the result adds the sum of the first index denoted
elements. -/
theorem prodLeftGo_spec (n : MTree) (len index : Nat) (ret : Int) :
    wf n = true → pendOf n = 0 → revOf n = false → len = count n →
    1 ≤ index → index < count n →
    prodLeftGo n len index ret = ret + ((toList n).take index).sum := by
  induction n, len, index, ret using prodLeftGo.induct with
  | case1 len index ret =>
      intro _ _ _ _ _ h2
      simp [count] at h2
  | case2 len index ret v s p idx rv l r hlt ih =>
      intro hw hp hr hlen h1 h2
      rw [wf_node_iff] at hw
      obtain ⟨hwl, hwr, hidx, _hsv⟩ := hw
      have htl := toList_flat hp hr
      rw [prodLeftGo, if_pos hlt,
        ih (wf_setup l idx hwl hidx) (pendOf_setup l idx)
          (revOf_setup l idx) (by simp [hidx]) h1
          (by simp [count_setup]; omega),
        toList_setup, htl, List.take_append_eq_append_take,
        show index - (toList l).length = 0 from by
          rw [length_toList]; omega,
        List.take_zero, List.append_nil]
  | case3 len index ret v s p rv l r hni =>
      intro hw hp hr hlen h1 h2
      rw [wf_node_iff] at hw
      obtain ⟨hwl, hwr, hidx, _hsv⟩ := hw
      have htl := toList_flat hp hr
      rw [prodLeftGo, if_neg hni, if_pos rfl, infoSum_setup,
        infoSum_eq_sumT l hwl, htl, List.take_append_eq_append_take,
        show index - (toList l).length = 0 from by
          rw [length_toList]; omega,
        List.take_zero, List.append_nil,
        List.take_of_length_le (by rw [length_toList]; omega)]
      rfl
  | case4 len ret v s p idx rv l r hc1 hc2 =>
      intro hw hp hr hlen h1 h2
      rw [wf_node_iff] at hw
      obtain ⟨hwl, hwr, hidx, _hsv⟩ := hw
      have htl := toList_flat hp hr
      rw [prodLeftGo, if_neg hc1, if_neg hc2, if_pos rfl,
        retPlusL_eq l idx ret hwl, htl, List.take_append_eq_append_take,
        List.take_of_length_le (by rw [length_toList]; omega),
        show idx + 1 - (toList l).length = 1 from by
          rw [length_toList]; omega]
      simp [sumT]
      ring
  | case5 len index ret v s p idx rv l r hc1 hc2 hc3 ih =>
      intro hw hp hr hlen h1 h2
      rw [wf_node_iff] at hw
      obtain ⟨hwl, hwr, hidx, _hsv⟩ := hw
      have htl := toList_flat hp hr
      simp only [count_node] at h2 hlen
      have hlenl : (toList l).length = idx := by rw [length_toList, hidx]
      have htk : (toList l).take index = toList l :=
        List.take_of_length_le (by omega)
      rw [prodLeftGo, if_neg hc1, if_neg hc2, if_neg hc3,
        ih (wf_setup r (len - idx - 1) hwr (by omega))
          (pendOf_setup r (len - idx - 1)) (revOf_setup r (len - idx - 1))
          (by simp [count_setup]; omega) (by omega)
          (by simp [count_setup]; omega),
        toList_setup, retPlusL_eq l idx ret hwl, htl,
        List.take_append_eq_append_take, htk, hlenl,
        show index - idx = (index - idx - 1) + 1 from by omega,
        List.take_succ_cons]
      simp [sumT]
      ring

/-- The prod_right loop: the result adds the sum of the denoted elements
from index onward to the already-accumulated ret. -/
theorem prodRightGo_spec (n : MTree) (len index : Nat) (ret : Int) :
    wf n = true → pendOf n = 0 → revOf n = false → len = count n →
    1 ≤ index → index < count n →
    prodRightGo n len index ret = ((toList n).drop index).sum + ret := by
  induction n, len, index, ret using prodRightGo.induct with
  | case1 len index ret =>
      intro _ _ _ _ _ h2
      simp [count] at h2
  | case2 len index ret v s p rv l r hle =>
      intro hw hp hr hlen h1 h2
      rw [wf_node_iff] at hw
      obtain ⟨hwl, hwr, hidx, _hsv⟩ := hw
      have htl := toList_flat hp hr
      have hlenl : (toList l).length = index := by rw [length_toList, hidx]
      have hdr : (toList l).drop index = [] :=
        List.drop_eq_nil_of_le (by omega)
      rw [prodRightGo, if_pos hle, if_pos rfl,
        retPlusR_eq r (len - index - 1) ret hwr, htl,
        List.drop_append_eq_append_drop, hdr, hlenl,
        show index - index = 0 from by omega, List.drop_zero,
        List.nil_append]
      simp [sumT]
      ring
  | case3 len index ret v s p idx rv l r hle hne ih =>
      intro hw hp hr hlen h1 h2
      rw [wf_node_iff] at hw
      obtain ⟨hwl, hwr, hidx, _hsv⟩ := hw
      have htl := toList_flat hp hr
      have hlenl : (toList l).length = idx := by rw [length_toList, hidx]
      simp only [count_node] at h2 hlen
      rw [prodRightGo, if_pos hle, if_neg hne,
        ih (wf_setup l idx hwl hidx) (pendOf_setup l idx)
          (revOf_setup l idx) (by simp [count_setup, hidx]) h1
          (by simp [count_setup]; omega),
        toList_setup, retPlusR_eq r (len - idx - 1) ret hwr, htl,
        List.drop_append_eq_append_drop,
        show index - (toList l).length = 0 from by omega,
        List.drop_zero]
      simp [sumT]
      ring
  | case4 len ret v s p idx rv l r hgt =>
      intro hw hp hr hlen h1 h2
      rw [wf_node_iff] at hw
      obtain ⟨hwl, hwr, hidx, _hsv⟩ := hw
      have htl := toList_flat hp hr
      have hlenl : (toList l).length = idx := by rw [length_toList, hidx]
      have hdr : (toList l).drop (idx + 1) = [] :=
        List.drop_eq_nil_of_le (by omega)
      rw [prodRightGo, if_neg hgt, if_pos rfl, infoSum_setup,
        infoSum_eq_sumT r hwr, htl, List.drop_append_eq_append_drop, hdr,
        hlenl, show idx + 1 - idx = 1 from by omega]
      simp [sumT]
  | case5 len index ret v s p idx rv l r hgt hne ih =>
      intro hw hp hr hlen h1 h2
      rw [wf_node_iff] at hw
      obtain ⟨hwl, hwr, hidx, _hsv⟩ := hw
      have htl := toList_flat hp hr
      have hlenl : (toList l).length = idx := by rw [length_toList, hidx]
      simp only [count_node] at h2 hlen
      have hdr : (toList l).drop index = [] :=
        List.drop_eq_nil_of_le (by omega)
      rw [prodRightGo, if_neg hgt, if_neg hne,
        ih (wf_setup r (len - idx - 1) hwr (by omega))
          (pendOf_setup r (len - idx - 1)) (revOf_setup r (len - idx - 1))
          (by simp [count_setup]; omega) (by omega)
          (by simp [count_setup]; omega),
        toList_setup, htl, List.drop_append_eq_append_drop, hdr, hlenl,
        show index - idx = (index - idx - 1) + 1 from by omega,
        List.drop_succ_cons, List.nil_append]
      simp

/-- NodeWrapper::prod_left computes the sum of the first index denoted
elements. -/
theorem prodLeft_spec (t : MTree) (len index : Nat) (hw : wf t = true)
    (hlen : len = count t) (hle : index ≤ count t) :
    prodLeft t len index = ((toList t).take index).sum := by
  by_cases h0 : index = 0
  · subst h0
    rw [prodLeft, if_pos rfl]
    simp
  · rw [prodLeft, if_neg h0]
    split
    next heq =>
        rw [setup_eq_nil_iff] at heq
        subst heq
        simp [count] at hle
        omega
    next n heq =>
        by_cases hil : index = len
        · rw [if_pos hil, infoSum_setup, infoSum_eq_sumT t hw,
            List.take_of_length_le (by rw [length_toList]; omega)]
          rfl
        · rw [if_neg hil,
            prodLeftGo_spec (setup t len) len index 0
              (wf_setup t len hw hlen) (pendOf_setup t len)
              (revOf_setup t len) (by rw [count_setup]; exact hlen)
              (by omega) (by rw [count_setup]; omega),
            toList_setup, zero_add]

/-- NodeWrapper::prod_right computes the sum of the denoted elements from
index onward. -/
theorem prodRight_spec (t : MTree) (len index : Nat) (hw : wf t = true)
    (hlen : len = count t) (hle : index ≤ count t) :
    prodRight t len index = ((toList t).drop index).sum := by
  by_cases hil : index = len
  · subst hil
    rw [prodRight, if_pos rfl,
      List.drop_eq_nil_of_le (by rw [length_toList]; omega)]
    rfl
  · rw [prodRight, if_neg hil]
    split
    next heq =>
        rw [setup_eq_nil_iff] at heq
        subst heq
        simp [count] at hle
        subst hle
        simp
    next n heq =>
        by_cases h0 : index = 0
        · rw [if_pos h0, infoSum_setup, infoSum_eq_sumT t hw, h0,
            List.drop_zero]
          rfl
        · rw [if_neg h0,
            prodRightGo_spec (setup t len) len index 0
              (wf_setup t len hw hlen) (pendOf_setup t len)
              (revOf_setup t len) (by rw [count_setup]; exact hlen)
              (by omega) (by rw [count_setup]; omega),
            toList_setup, add_zero]

theorem prodGo_unfold {t : MTree} {len : Nat} (a b : Nat) {v s p : Int}
    {idx : Nat} {rv : Bool} {l r : MTree}
    (h1 : ¬(a = 0 ∧ b = len)) (h2 : ¬ a = 0) (h3 : ¬ b = len)
    (hs : setup t len = .node v s p idx rv l r) :
    prodGo t len a b =
      if a ≤ idx ∧ b ≤ idx then prodGo l idx a b
      else if idx < a ∧ idx < b then
        prodGo r (len - idx - 1) (a - idx - 1) (b - idx - 1)
      else (prodRight l idx a + v) + prodLeft r (len - idx - 1) (b - idx - 1) := by
  rw [prodGo, if_neg h1, if_neg h2, if_neg h3]
  split
  next heq => rw [hs] at heq; cases heq
  next v2 s2 p2 i2 rv2 l2 r2 heq =>
    rw [hs] at heq
    cases heq
    rfl

/-- The prod loop over an inner range a..b sums exactly that slice of the
denoted sequence. -/
theorem prodGo_spec (t : MTree) (len a b : Nat) :
    wf t = true → len = count t → a < b → b ≤ count t →
    prodGo t len a b = (((toList t).take b).drop a).sum := by
  induction t, len, a, b using prodGo.induct with
  | case1 t len a b hab0 =>
      intro hw hlen _hab _hble
      obtain ⟨ha, hb⟩ := hab0
      subst ha
      subst hb
      rw [prodGo, if_pos ⟨rfl, rfl⟩, infoSum_setup, infoSum_eq_sumT t hw,
        List.take_of_length_le (by rw [length_toList]; omega),
        List.drop_zero]
      rfl
  | case2 t len b hn =>
      intro hw hlen _hab hble
      rw [prodGo, if_neg hn, if_pos rfl,
        prodLeft_spec t len b hw hlen hble, List.drop_zero]
  | case3 t a b ha hn =>
      intro hw hlen hab _hble
      rw [prodGo, if_neg hn, if_neg ha, if_pos rfl,
        prodRight_spec t b a hw hlen (by omega),
        List.take_of_length_le (by rw [length_toList]; omega)]
  | case4 t len a b hn ha hb hnil =>
      intro _hw hlen hab hble
      rw [setup_eq_nil_iff] at hnil
      subst hnil
      simp [count] at hble
      omega
  | case5 t len a b hn ha hb v s p idx rv l r hs hcov ih =>
      intro hw hlen hab hble
      obtain ⟨hwl, hwr, hidx, hcnt, htl, _hsv⟩ := setup_node_facts hw hlen hs
      have hlenl : (toList l).length = idx := by rw [length_toList, hidx]
      rw [prodGo_unfold a b hn ha hb hs, if_pos hcov,
        ih hwl hidx hab (by omega), htl,
        List.take_append_eq_append_take,
        show b - (toList l).length = 0 from by omega, List.take_zero,
        List.append_nil]
  | case6 t len a b hn ha hb v s p idx rv l r hs hncov hboth ih =>
      intro hw hlen hab hble
      obtain ⟨hwl, hwr, hidx, hcnt, htl, _hsv⟩ := setup_node_facts hw hlen hs
      have hlenl : (toList l).length = idx := by rw [length_toList, hidx]
      obtain ⟨hia, hib⟩ := hboth
      have htkA : (toList l).take b = toList l :=
        List.take_of_length_le (by omega)
      have hdrA : ((toList l).drop a) = [] :=
        List.drop_eq_nil_of_le (by omega)
      rw [prodGo_unfold a b hn ha hb hs, if_neg hncov, if_pos ⟨hia, hib⟩,
        ih hwr (by omega) (by omega) (by omega), htl,
        List.take_append_eq_append_take, htkA, hlenl,
        show b - idx = (b - idx - 1) + 1 from by omega, List.take_succ_cons,
        List.drop_append_eq_append_drop, hdrA, hlenl,
        show a - idx = (a - idx - 1) + 1 from by omega, List.drop_succ_cons,
        List.nil_append]
      simp
  | case7 t len a b hn ha hb v s p idx rv l r hs hncov hnboth =>
      intro hw hlen hab hble
      obtain ⟨hwl, hwr, hidx, hcnt, htl, _hsv⟩ := setup_node_facts hw hlen hs
      have hlenl : (toList l).length = idx := by rw [length_toList, hidx]
      have hrange : a ≤ idx ∧ idx < b := by omega
      have htkA : (toList l).take b = toList l :=
        List.take_of_length_le (by omega)
      rw [prodGo_unfold a b hn ha hb hs, if_neg hncov, if_neg hnboth,
        prodRight_spec l idx a hwl hidx (by omega),
        prodLeft_spec r (len - idx - 1) (b - idx - 1) hwr (by omega)
          (by omega), htl,
        List.take_append_eq_append_take, htkA, hlenl,
        show b - idx = (b - idx - 1) + 1 from by omega, List.take_succ_cons,
        List.drop_append_eq_append_drop, hlenl,
        show a - idx = 0 from by omega, List.drop_zero]
      simp
      ring

theorem applyLeft_unfold {t : MTree} {len : Nat} (index : Nat) (lz : Int)
    {v s p : Int} {idx : Nat} {rv : Bool} {l r : MTree}
    (h0 : ¬ index = 0) (hl : ¬ index = len)
    (hs : setup t len = .node v s p idx rv l r) :
    applyLeft t len index lz =
      if index ≤ idx then updN v idx (applyLeft l idx index lz) r
      else
        updN (v + lz) idx (pushInfo l idx lz)
          (applyLeft r (len - idx - 1) (index - idx - 1) lz) := by
  rw [applyLeft, if_neg h0, if_neg hl]
  split
  next heq => rw [hs] at heq; cases heq
  next v2 s2 p2 i2 rv2 l2 r2 heq =>
    rw [hs] at heq
    cases heq
    rfl

/-- NodeWrapper::apply_left adds the operator to exactly the first index
denoted elements. -/
theorem applyLeft_spec (t : MTree) (len index : Nat) (lz : Int) :
    wf t = true → len = count t → index ≤ count t →
    toList (applyLeft t len index lz) =
      ((toList t).take index).map (fun x => x + lz) ++ (toList t).drop index ∧
    wf (applyLeft t len index lz) = true ∧
    count (applyLeft t len index lz) = count t := by
  induction t, len, index, lz using applyLeft.induct with
  | case1 t len lz =>
      intro hw _hlen _hle
      rw [show applyLeft t len 0 lz = t from by rw [applyLeft]; rfl]
      exact ⟨by simp, hw, rfl⟩
  | case2 t index lz h0 =>
      intro hw hlen hle
      rw [show applyLeft t index index lz = pushInfo t index lz from by
        rw [applyLeft, if_neg h0, if_pos rfl]]
      have htk : (toList t).take index = toList t :=
        List.take_of_length_le (by rw [length_toList]; omega)
      have hdr : (toList t).drop index = [] :=
        List.drop_eq_nil_of_le (by rw [length_toList]; omega)
      rw [toList_pushInfo, htk, hdr, List.append_nil]
      exact ⟨rfl, wf_pushInfo t index lz hw hlen, by simp⟩
  | case3 t len index lz h0 hl hnil =>
      intro _hw hlen hle
      rw [setup_eq_nil_iff] at hnil
      subst hnil
      simp [count] at hle
      omega
  | case4 t len index lz h0 hl v s p idx rv l r hs hle2 ih =>
      intro hw hlen hle
      obtain ⟨hwl, hwr, hidx, hcnt, htl, _hsv⟩ := setup_node_facts hw hlen hs
      have hlenl : (toList l).length = idx := by rw [length_toList, hidx]
      obtain ⟨ih1, ih2, ih3⟩ := ih hwl hidx (by omega)
      rw [applyLeft_unfold index lz h0 hl hs, if_pos hle2]
      refine ⟨?_, wf_updN v idx _ r ih2 hwr (by omega), ?_⟩
      · rw [toList_updN, ih1, htl, List.take_append_eq_append_take,
          show index - (toList l).length = 0 from by omega, List.take_zero,
          List.append_nil, List.drop_append_eq_append_drop,
          show index - (toList l).length = 0 from by omega, List.drop_zero,
          List.append_assoc]
      · rw [count_updN, ih3]
        omega
  | case5 t len index lz h0 hl v s p idx rv l r hs hgt ih =>
      intro hw hlen hle
      obtain ⟨hwl, hwr, hidx, hcnt, htl, _hsv⟩ := setup_node_facts hw hlen hs
      have hlenl : (toList l).length = idx := by rw [length_toList, hidx]
      obtain ⟨ih1, ih2, ih3⟩ := ih hwr (by omega) (by omega)
      rw [applyLeft_unfold index lz h0 hl hs, if_neg hgt]
      have htk : (toList l).take index = toList l :=
        List.take_of_length_le (by omega)
      have hdr : (toList l).drop index = [] :=
        List.drop_eq_nil_of_le (by omega)
      refine ⟨?_, wf_updN (v + lz) idx _ _
        (wf_pushInfo l idx lz hwl hidx) ih2 (by simp [hidx]), ?_⟩
      · rw [toList_updN, ih1, toList_pushInfo, htl,
          List.take_append_eq_append_take, htk, hlenl,
          show index - idx = (index - idx - 1) + 1 from by omega,
          List.take_succ_cons, List.drop_append_eq_append_drop, hdr, hlenl,
          show index - idx = (index - idx - 1) + 1 from by omega,
          List.drop_succ_cons, List.nil_append, List.map_append,
          List.map_cons, List.append_assoc, List.cons_append]
        simp
      · rw [count_updN, ih3]
        simp
        omega

theorem applyRight_unfold {t : MTree} {len : Nat} (index : Nat) (lz : Int)
    {v s p : Int} {idx : Nat} {rv : Bool} {l r : MTree}
    (h0 : ¬ index = 0) (hl : ¬ index = len)
    (hs : setup t len = .node v s p idx rv l r) :
    applyRight t len index lz =
      if idx + 1 < index then
        updN v idx l (applyRight r (len - idx - 1) (index - idx - 1) lz)
      else
        if index ≤ idx then
          updN (v + lz) idx
            (if index < idx then applyRight l idx index lz else l)
            (pushInfo r (len - idx - 1) lz)
        else updN v idx l (pushInfo r (len - idx - 1) lz) := by
  rw [applyRight, if_neg h0, if_neg hl]
  split
  next heq => rw [hs] at heq; cases heq
  next v2 s2 p2 i2 rv2 l2 r2 heq =>
    rw [hs] at heq
    cases heq
    rfl

/-- NodeWrapper::apply_right adds the operator to exactly the denoted
elements from index onward. -/
theorem applyRight_spec (t : MTree) (len index : Nat) (lz : Int) :
    wf t = true → len = count t → index ≤ count t →
    toList (applyRight t len index lz) =
      (toList t).take index ++ ((toList t).drop index).map (fun x => x + lz) ∧
    wf (applyRight t len index lz) = true ∧
    count (applyRight t len index lz) = count t := by
  induction t, len, index, lz using applyRight.induct with
  | case1 t len lz =>
      intro hw hlen _hle
      rw [show applyRight t len 0 lz = pushInfo t len lz from by
        rw [applyRight]; rfl]
      rw [toList_pushInfo]
      exact ⟨by simp, wf_pushInfo t len lz hw hlen, by simp⟩
  | case2 t index lz h0 =>
      intro hw hlen hle
      rw [show applyRight t index index lz = t from by
        rw [applyRight, if_neg h0, if_pos rfl]]
      have htk : (toList t).take index = toList t :=
        List.take_of_length_le (by rw [length_toList]; omega)
      have hdr : (toList t).drop index = [] :=
        List.drop_eq_nil_of_le (by rw [length_toList]; omega)
      rw [htk, hdr]
      exact ⟨by simp, hw, rfl⟩
  | case3 t len index lz h0 hl hnil =>
      intro _hw hlen hle
      rw [setup_eq_nil_iff] at hnil
      subst hnil
      simp [count] at hle
      omega
  | case4 t len index lz h0 hl v s p idx rv l r hs hgt ih =>
      intro hw hlen hle
      obtain ⟨hwl, hwr, hidx, hcnt, htl, _hsv⟩ := setup_node_facts hw hlen hs
      have hlenl : (toList l).length = idx := by rw [length_toList, hidx]
      obtain ⟨ih1, ih2, ih3⟩ := ih hwr (by omega) (by omega)
      rw [applyRight_unfold index lz h0 hl hs, if_pos hgt]
      have htk : (toList l).take index = toList l :=
        List.take_of_length_le (by omega)
      have hdr : (toList l).drop index = [] :=
        List.drop_eq_nil_of_le (by omega)
      refine ⟨?_, wf_updN v idx l _ hwl ih2 (by omega), ?_⟩
      · rw [toList_updN, ih1, htl, List.take_append_eq_append_take, htk,
          hlenl, show index - idx = (index - idx - 1) + 1 from by omega,
          List.take_succ_cons, List.drop_append_eq_append_drop, hdr, hlenl,
          show index - idx = (index - idx - 1) + 1 from by omega,
          List.drop_succ_cons, List.nil_append, List.append_assoc,
          List.cons_append]
        simp
      · rw [count_updN, ih3]
        omega
  | case5 t len index lz h0 hl v s p idx rv l r hs hng hle2 ih =>
      intro hw hlen hle
      obtain ⟨hwl, hwr, hidx, hcnt, htl, _hsv⟩ := setup_node_facts hw hlen hs
      have hlenl : (toList l).length = idx := by rw [length_toList, hidx]
      rw [applyRight_unfold index lz h0 hl hs, if_neg hng, if_pos hle2]
      by_cases hlt : index < idx
      · obtain ⟨ih1, ih2, ih3⟩ := ih hwl hidx (by omega)
        rw [if_pos hlt]
        refine ⟨?_, wf_updN (v + lz) idx _ _ ih2
          (wf_pushInfo r (len - idx - 1) lz hwr (by omega))
          (by omega), ?_⟩
        · rw [toList_updN, ih1, toList_pushInfo, htl,
            List.take_append_eq_append_take,
            show index - (toList l).length = 0 from by omega,
            List.take_zero, List.append_nil,
            List.drop_append_eq_append_drop,
            show index - (toList l).length = 0 from by omega,
            List.drop_zero, List.map_append, List.map_cons,
            List.append_assoc]
        · rw [count_updN, ih3]
          simp
          omega
      · have hieq : index = idx := by omega
        subst hieq
        rw [if_neg hlt]
        have htk : (toList l).take index = toList l :=
          List.take_of_length_le (by omega)
        have hdr : (toList l).drop index = [] :=
          List.drop_eq_nil_of_le (by omega)
        refine ⟨?_, wf_updN (v + lz) index _ _ hwl
          (wf_pushInfo r (len - index - 1) lz hwr (by omega))
          (by omega), ?_⟩
        · rw [toList_updN, toList_pushInfo, htl,
            List.take_append_eq_append_take, htk, hlenl,
            show index - index = 0 from by omega, List.take_zero,
            List.append_nil, List.drop_append_eq_append_drop, hdr, hlenl,
            show index - index = 0 from by omega, List.drop_zero]
          simp
        · rw [count_updN]
          simp
          omega
  | case6 t len index lz h0 hl v s p idx rv l r hs hng hgt =>
      intro hw hlen hle
      obtain ⟨hwl, hwr, hidx, hcnt, htl, _hsv⟩ := setup_node_facts hw hlen hs
      have hlenl : (toList l).length = idx := by rw [length_toList, hidx]
      have hieq : index = idx + 1 := by omega
      subst hieq
      rw [applyRight_unfold (idx + 1) lz h0 hl hs, if_neg hng, if_neg hgt]
      have htk : (toList l).take (idx + 1) = toList l :=
        List.take_of_length_le (by omega)
      have hdr : (toList l).drop (idx + 1) = [] :=
        List.drop_eq_nil_of_le (by omega)
      refine ⟨?_, wf_updN v idx l _ hwl
        (wf_pushInfo r (len - idx - 1) lz hwr (by omega)) (by omega), ?_⟩
      · rw [toList_updN, toList_pushInfo, htl,
          List.take_append_eq_append_take, htk, hlenl,
          show idx + 1 - idx = 1 from by omega,
          List.drop_append_eq_append_drop, hdr, hlenl,
          show idx + 1 - idx = 1 from by omega]
        simp
      · rw [count_updN]
        simp
        omega

theorem glue_left (A B : List Int) (v : Int) (f : Int → Int) (a b idx : Nat)
    (hA : A.length = idx) (hab : a ≤ b) (hb : b ≤ idx) :
    (A.take a ++ ((A.take b).drop a).map f ++ A.drop b) ++ v :: B =
      (A ++ v :: B).take a ++ (((A ++ v :: B).take b).drop a).map f ++
        (A ++ v :: B).drop b := by
  subst hA
  rw [List.take_append_eq_append_take,
    show a - A.length = 0 from by omega, List.take_zero, List.append_nil,
    List.take_append_eq_append_take,
    show b - A.length = 0 from by omega, List.take_zero, List.append_nil,
    List.drop_append_eq_append_drop,
    show b - A.length = 0 from by omega, List.drop_zero]
  simp [List.append_assoc]

theorem glue_right (A B : List Int) (v : Int) (f : Int → Int) (a b idx : Nat)
    (hA : A.length = idx) (ha : idx < a) (hb : idx < b) :
    A ++ v :: (B.take (a - idx - 1) ++
        ((B.take (b - idx - 1)).drop (a - idx - 1)).map f ++
        B.drop (b - idx - 1)) =
      (A ++ v :: B).take a ++ (((A ++ v :: B).take b).drop a).map f ++
        (A ++ v :: B).drop b := by
  subst hA
  have htkA : A.take a = A := List.take_of_length_le (by omega)
  have htkB : A.take b = A := List.take_of_length_le (by omega)
  have hdrA : A.drop a = [] := List.drop_eq_nil_of_le (by omega)
  have hdrB : A.drop b = [] := List.drop_eq_nil_of_le (by omega)
  rw [List.take_append_eq_append_take, htkA,
    show a - A.length = (a - A.length - 1) + 1 from by omega,
    List.take_succ_cons,
    List.take_append_eq_append_take, htkB,
    show b - A.length = (b - A.length - 1) + 1 from by omega,
    List.take_succ_cons,
    List.drop_append_eq_append_drop, hdrA,
    show a - A.length = (a - A.length - 1) + 1 from by omega,
    List.drop_succ_cons, List.nil_append,
    List.drop_append_eq_append_drop, hdrB,
    show b - A.length = (b - A.length - 1) + 1 from by omega,
    List.drop_succ_cons, List.nil_append]
  simp [List.append_assoc]

theorem glue_mid (A B : List Int) (v lz : Int) (a b idx : Nat)
    (hA : A.length = idx) (ha : a ≤ idx) (hb : idx < b) :
    (A.take a ++ (A.drop a).map (fun x => x + lz)) ++ (v + lz) ::
        ((B.take (b - idx - 1)).map (fun x => x + lz) ++
          B.drop (b - idx - 1)) =
      (A ++ v :: B).take a ++
        (((A ++ v :: B).take b).drop a).map (fun x => x + lz) ++
        (A ++ v :: B).drop b := by
  subst hA
  have htkB : A.take b = A := List.take_of_length_le (by omega)
  have hdrB : A.drop b = [] := List.drop_eq_nil_of_le (by omega)
  rw [List.take_append_eq_append_take,
    show a - A.length = 0 from by omega, List.take_zero, List.append_nil,
    List.take_append_eq_append_take, htkB,
    show b - A.length = (b - A.length - 1) + 1 from by omega,
    List.take_succ_cons,
    List.drop_append_eq_append_drop,
    show a - A.length = 0 from by omega, List.drop_zero,
    List.drop_append_eq_append_drop, hdrB,
    show b - A.length = (b - A.length - 1) + 1 from by omega,
    List.drop_succ_cons, List.nil_append, List.map_append, List.map_cons]
  simp [List.append_assoc]

theorem applyT_unfold {t : MTree} {len : Nat} (a b : Nat) (lz : Int)
    {v s p : Int} {idx : Nat} {rv : Bool} {l r : MTree}
    (h0 : ¬ a = 0) (hl : ¬ b = len)
    (hs : setup t len = .node v s p idx rv l r) :
    applyT t len a b lz =
      if a ≤ idx ∧ b ≤ idx then updN v idx (applyT l idx a b lz) r
      else if idx < a ∧ idx < b then
        updN v idx l (applyT r (len - idx - 1) (a - idx - 1) (b - idx - 1) lz)
      else
        updN (v + lz) idx (applyRight l idx a lz)
          (applyLeft r (len - idx - 1) (b - idx - 1) lz) := by
  rw [applyT, if_neg h0, if_neg hl]
  split
  next heq => rw [hs] at heq; cases heq
  next v2 s2 p2 i2 rv2 l2 r2 heq =>
    rw [hs] at heq
    cases heq
    rfl

/-- NodeWrapper::apply adds the operator to exactly the denoted elements
in the half-open range a..b. -/
theorem applyT_spec (t : MTree) (len a b : Nat) (lz : Int) :
    wf t = true → len = count t → a < b → b ≤ count t →
    toList (applyT t len a b lz) =
      (toList t).take a ++
        (((toList t).take b).drop a).map (fun x => x + lz) ++
        (toList t).drop b ∧
    wf (applyT t len a b lz) = true ∧
    count (applyT t len a b lz) = count t := by
  induction t, len, a, b, lz using applyT.induct with
  | case1 t len b lz =>
      intro hw hlen hab hble
      rw [show applyT t len 0 b lz = applyLeft t len b lz from by
        rw [applyT]; rfl]
      obtain ⟨h1, h2, h3⟩ := applyLeft_spec t len b lz hw hlen hble
      rw [h1]
      exact ⟨by simp, h2, h3⟩
  | case2 t a b lz h0 =>
      intro hw hlen hab hble
      rw [show applyT t b a b lz = applyRight t b a lz from by
        rw [applyT, if_neg h0, if_pos rfl]]
      obtain ⟨h1, h2, h3⟩ := applyRight_spec t b a lz hw hlen (by omega)
      rw [h1]
      have htk : (toList t).take b = toList t :=
        List.take_of_length_le (by rw [length_toList]; omega)
      have hdr : (toList t).drop b = [] :=
        List.drop_eq_nil_of_le (by rw [length_toList]; omega)
      rw [htk, hdr, List.append_nil]
      exact ⟨rfl, h2, h3⟩
  | case3 t len a b lz h0 hl hnil =>
      intro _hw hlen hab hble
      rw [setup_eq_nil_iff] at hnil
      subst hnil
      simp [count] at hble
      omega
  | case4 t len a b lz h0 hl v s p idx rv l r hs hcov ih =>
      intro hw hlen hab hble
      obtain ⟨hwl, hwr, hidx, hcnt, htl, _hsv⟩ := setup_node_facts hw hlen hs
      have hlenl : (toList l).length = idx := by rw [length_toList, hidx]
      obtain ⟨ih1, ih2, ih3⟩ := ih hwl hidx hab (by omega)
      rw [applyT_unfold a b lz h0 hl hs, if_pos hcov]
      refine ⟨?_, wf_updN v idx _ r ih2 hwr (by omega), ?_⟩
      · rw [toList_updN, ih1, htl]
        exact glue_left (toList l) (toList r) v _ a b idx hlenl
          (by omega) (by omega)
      · rw [count_updN, ih3]
        omega
  | case5 t len a b lz h0 hl v s p idx rv l r hs hncov hboth ih =>
      intro hw hlen hab hble
      obtain ⟨hwl, hwr, hidx, hcnt, htl, _hsv⟩ := setup_node_facts hw hlen hs
      have hlenl : (toList l).length = idx := by rw [length_toList, hidx]
      obtain ⟨hia, hib⟩ := hboth
      obtain ⟨ih1, ih2, ih3⟩ := ih hwr (by omega) (by omega) (by omega)
      rw [applyT_unfold a b lz h0 hl hs, if_neg hncov, if_pos ⟨hia, hib⟩]
      refine ⟨?_, wf_updN v idx l _ hwl ih2 (by omega), ?_⟩
      · rw [toList_updN, ih1, htl]
        exact glue_right (toList l) (toList r) v _ a b idx hlenl hia hib
      · rw [count_updN, ih3]
        omega
  | case6 t len a b lz h0 hl v s p idx rv l r hs hncov hnboth =>
      intro hw hlen hab hble
      obtain ⟨hwl, hwr, hidx, hcnt, htl, _hsv⟩ := setup_node_facts hw hlen hs
      have hlenl : (toList l).length = idx := by rw [length_toList, hidx]
      have hrange : a ≤ idx ∧ idx < b := by omega
      obtain ⟨hr1, hr2, hr3⟩ := applyRight_spec l idx a lz hwl hidx (by omega)
      obtain ⟨hl1, hl2, hl3⟩ := applyLeft_spec r (len - idx - 1) (b - idx - 1)
        lz hwr (by omega) (by omega)
      rw [applyT_unfold a b lz h0 hl hs, if_neg hncov, if_neg hnboth]
      refine ⟨?_, wf_updN (v + lz) idx _ _ hr2 hl2 (by omega), ?_⟩
      · rw [toList_updN, hr1, hl1, htl]
        exact glue_mid (toList l) (toList r) v lz a b idx hlenl hrange.1
          hrange.2
      · rw [count_updN, hr3, hl3]
        omega

theorem removeT_lt {t : MTree} {len : Nat} (index g : Nat)
    {v s p : Int} {idx : Nat} {rv : Bool} {l r : MTree}
    (hs : setup t len = .node v s p idx rv l r) (h : index < idx) :
    removeT t len index g =
      ((removeT l idx index g).1,
        .node v (infoSum (removeT l idx index g).2.1 + v + infoSum r) 0 idx
          false (removeT l idx index g).2.1 r,
        (removeT l idx index g).2.2) := by
  rw [removeT]
  split
  next heq => rw [hs] at heq; cases heq
  next v2 s2 p2 i2 rv2 l2 r2 heq =>
    rw [hs] at heq
    cases heq
    rw [if_pos h]

theorem removeT_gt {t : MTree} {len : Nat} (index g : Nat)
    {v s p : Int} {idx : Nat} {rv : Bool} {l r : MTree}
    (hs : setup t len = .node v s p idx rv l r) (h1 : ¬ index < idx)
    (h2 : ¬ index = idx) :
    removeT t len index g =
      ((removeT r (len - 1 - idx) (index - 1 - idx) g).1,
        .node v
          (infoSum (removeT r (len - 1 - idx) (index - 1 - idx) g).2.1 + v +
            infoSum (.nil)) 0 idx false
          (removeT r (len - 1 - idx) (index - 1 - idx) g).2.1 .nil,
        (removeT r (len - 1 - idx) (index - 1 - idx) g).2.2) := by
  rw [removeT]
  split
  next heq => rw [hs] at heq; cases heq
  next v2 s2 p2 i2 rv2 l2 r2 heq =>
    rw [hs] at heq
    cases heq
    rw [if_neg h1, if_neg h2]

theorem removeT_at_leaf {t : MTree} {len : Nat} (g : Nat)
    {v s p : Int} {idx : Nat} {rv : Bool}
    (hs : setup t len = .node v s p idx rv .nil .nil) :
    removeT t len idx g = (v, .nil, g) := by
  rw [removeT]
  split
  next heq => rw [hs] at heq; cases heq
  next v2 s2 p2 i2 rv2 l2 r2 heq =>
    rw [hs] at heq
    cases heq
    rw [if_neg (lt_irrefl idx), if_pos rfl]

/-- The push-left-path loop shared by MasterTree::iter (lines 653-663)
and Iter::next (lines 630-639).  Faithfully to the source (lines 634 and
658), every setup call receives self.len() — the TOTAL length — instead
of the tracked per-subtree length that is stored on the stack. -/
def iterPush (total : Nat) (t : MTree) (len : Nat)
    (st : List (MTree × Nat)) : List (MTree × Nat) :=
  match t with
  | .nil => st
  | tt =>
    match hs : setup tt total with
    | .nil => st
    | .node v s p idx rv l r =>
        iterPush total l idx ((MTree.node v s p idx rv l r, len) :: st)
termination_by count t
decreasing_by
  · have h := count_setup tt total
    rw [hs] at h
    simp [count_node] at h
    omega

/-- Iter::next (lines 626-641) in debug build: yield the popped node's
value, then len -= idx + 1 (which panics on underflow in a debug build)
and push the right child's left path. -/
def iterNextDbg (total : Nat) (st : List (MTree × Nat)) :
    Option (Except String (Int × List (MTree × Nat))) :=
  match st with
  | [] => none
  | (f, len) :: rest =>
    match f with
    | .nil => some (.error "stack holds an empty subtree")
    | .node v _s _p idx _rv _l r =>
      if len < idx + 1 then
        some (.error "attempt to subtract with overflow")
      else some (.ok (v, iterPush total r (len - idx - 1) rest))

/-- Driving the iterator to exhaustion (what collect does), with explicit
fuel; total + 1 steps are enough to either finish or hit the panic on
every input considered here. -/
def iterCollectDbg (total : Nat) : Nat → List (MTree × Nat) → List Int →
    Except String (List Int)
  | 0, _, acc => .ok acc.reverse
  | fuel + 1, st, acc =>
    match iterNextDbg total st with
    | none => .ok acc.reverse
    | some (.error e) => .error e
    | some (.ok (v, st2)) => iterCollectDbg total fuel st2 (v :: acc)

theorem iterPush_nil (total len : Nat) (st : List (MTree × Nat)) :
    iterPush total .nil len st = st := by
  rw [iterPush]

theorem iterPush_unfold {total : Nat} {t : MTree} (len : Nat)
    (st : List (MTree × Nat)) {v s p : Int} {idx : Nat} {rv : Bool}
    {l r : MTree} (hs : setup t total = .node v s p idx rv l r) :
    iterPush total t len st =
      iterPush total l idx ((MTree.node v s p idx rv l r, len) :: st) := by
  cases t with
  | nil => simp [setup] at hs
  | node v0 s0 p0 idx0 rv0 l0 r0 =>
      rw [iterPush]
      split
      next heq => rw [hs] at heq; cases heq
      next v2 s2 p2 i2 rv2 l2 r2 heq =>
        rw [hs] at heq
        cases heq
        rfl
      next => intro h; cases h

/-! ### Trees without pending lazy state

A tree built purely by insertions carries no pending add and no pending
reversal anywhere, so every setup call on it is the identity whatever
length it is handed.  On such trees the iterator's length slip
(passing self.len() to every inner setup, lines 634 and 658) is
harmless, which is what lets iteration agree with the denotation for
insert-only histories. -/

/-- Every node of the subtree has pend = 0 and rev = false. -/
def clean : MTree → Bool
  | .nil => true
  | .node _ _ p _ rv l r => (p == 0) && (rv == false) && clean l && clean r

theorem clean_nil : clean .nil = true := rfl

theorem clean_node_iff (v s p : Int) (idx : Nat) (rv : Bool) (l r : MTree) :
    clean (.node v s p idx rv l r) = true ↔
      p = 0 ∧ rv = false ∧ clean l = true ∧ clean r = true := by
  simp [clean, and_assoc]

theorem pushInfo_zero (t : MTree) (clen : Nat) : pushInfo t clen 0 = t := by
  cases t <;> simp [pushInfo]

/-- On a clean node setup is the identity, for every length argument. -/
theorem setup_clean (t : MTree) (len : Nat) (hc : clean t = true) :
    setup t len = t := by
  cases t with
  | nil => rfl
  | node v s p idx rv l r =>
      obtain ⟨hp, hrv, _, _⟩ := (clean_node_iff v s p idx rv l r).mp hc
      subst hp
      subst hrv
      rw [setup_false_eq, pushInfo_zero, pushInfo_zero]
      simp

theorem toList_clean_node (v s : Int) (idx : Nat) (l r : MTree) :
    toList (.node v s 0 idx false l r) = toList l ++ v :: toList r := by
  rw [toList_node]
  simp

theorem clean_updN (v : Int) (idx : Nat) (l r : MTree)
    (hl : clean l = true) (hr : clean r = true) :
    clean (updN v idx l r) = true := by
  rw [updN, clean_node_iff]
  exact ⟨rfl, rfl, hl, hr⟩

/-- NodeWrapper::split creates only pend-free, rev-free nodes, so it
preserves cleanness of both parts. -/
theorem clean_splitT (t : MTree) (len index : Nat) :
    clean t = true →
    clean (splitT t len index).1 = true ∧
    clean (splitT t len index).2 = true := by
  induction t, len, index using splitT.induct with
  | case1 len index =>
      intro _hc
      rw [splitT]
      exact ⟨rfl, rfl⟩
  | case2 len tt _hne =>
      intro hc
      rw [splitT_zero]
      exact ⟨rfl, hc⟩
  | case3 index tt _hne h0 =>
      intro hc
      rw [splitT_full tt index (by omega)]
      exact ⟨hc, rfl⟩
  | case4 len index tt hne h0 hl hnil =>
      rw [setup_eq_nil_iff] at hnil
      exact absurd hnil (fun h => hne h)
  | case5 len index tt _hne h0 hlen0 v s p idx rv l r hs hlt ih =>
      intro hc
      have htt : tt = .node v s p idx rv l r :=
        (setup_clean tt len hc).symm.trans hs
      rw [htt, clean_node_iff] at hc
      obtain ⟨hp, hrv, hcl, hcr⟩ := hc
      obtain ⟨ih1, ih2⟩ := ih hcr
      rw [splitT_unfold index hs, if_neg h0, if_neg hlen0, if_pos hlt]
      exact ⟨clean_updN v idx l _ hcl ih1, ih2⟩
  | case6 len index tt _hne h0 hlen0 v s p idx rv l r hs hge ih =>
      intro hc
      have htt : tt = .node v s p idx rv l r :=
        (setup_clean tt len hc).symm.trans hs
      rw [htt, clean_node_iff] at hc
      obtain ⟨hp, hrv, hcl, hcr⟩ := hc
      obtain ⟨ih1, ih2⟩ := ih hcl
      rw [splitT_unfold index hs, if_neg h0, if_neg hlen0, if_neg hge]
      exact ⟨ih1, clean_updN v (idx - index) _ r ih2 hcr⟩

/-- NodeWrapper::insert preserves cleanness: it only reads clean nodes
through setup and writes pend-free, rev-free nodes. -/
theorem clean_insertT (t : MTree) (len index : Nat) (item : Int) (g : Nat) :
    clean t = true → clean (insertT t len index item g).1 = true := by
  induction t, len, index, item, g using insertT.induct with
  | case1 len index item g =>
      intro _hc
      rw [insertT_nil]
      simp [clean]
  | case2 len index item g tt hne c hcoin hnil =>
      intro _hc
      rw [setup_eq_nil_iff] at hnil
      exact absurd hnil (fun h => hne h)
  | case3 len index item g tt hne c hcoin v s p idx rv l r hs hlt ih =>
      intro hc
      have htt : tt = .node v s p idx rv l r :=
        (setup_clean tt len hc).symm.trans hs
      rw [htt, clean_node_iff] at hc
      obtain ⟨hp, hrv, hcl, hcr⟩ := hc
      rw [insertT_unfold index item g hs, if_pos hcoin, if_pos hlt]
      exact clean_updN v idx l _ hcl (ih hcr)
  | case4 len index item g tt hne c hcoin v s p idx rv l r hs hge ih =>
      intro hc
      have htt : tt = .node v s p idx rv l r :=
        (setup_clean tt len hc).symm.trans hs
      rw [htt, clean_node_iff] at hc
      obtain ⟨hp, hrv, hcl, hcr⟩ := hc
      rw [insertT_unfold index item g hs, if_pos hcoin, if_neg hge]
      exact clean_updN v (idx + 1) _ r (ih hcl) hcr
  | case5 len index item g tt hne c hcoin =>
      intro hc
      obtain ⟨h1, h2⟩ := clean_splitT tt len index hc
      cases hsn : setup tt len with
      | nil =>
          rw [setup_eq_nil_iff] at hsn
          exact absurd hsn (fun h => hne h)
      | node v s p idx rv l r =>
          rw [insertT_unfold index item g hsn, if_neg hcoin]
          exact (clean_node_iff item _ 0 index false _ _).mpr
            ⟨rfl, rfl, h1, h2⟩

/-! ### Iterator correctness on clean trees

The iterator stack invariant: every stacked entry is a clean,
well-formed node paired with its exact subtree size, and the remaining
output is, per entry from top to bottom, the node value followed by its
right subtree's sequence. -/

/-- One valid iterator stack entry. -/
def goodEntry : MTree × Nat → Bool
  | (.nil, _) => false
  | (.node v s p idx rv l r, len) =>
      clean (.node v s p idx rv l r) && wf (.node v s p idx rv l r) &&
        (len == count (.node v s p idx rv l r))

def goodStack : List (MTree × Nat) → Bool
  | [] => true
  | e :: rest => goodEntry e && goodStack rest

/-- The output an entry still owes: its value, then its right subtree. -/
def entryRest : MTree × Nat → List Int
  | (.nil, _) => []
  | (.node v _ _ _ _ _ r, _) => v :: toList r

/-- The output the whole stack still owes, top entry first. -/
def stackRest : List (MTree × Nat) → List Int
  | [] => []
  | e :: rest => entryRest e ++ stackRest rest

theorem iterPush_good (total : Nat) (t : MTree) :
    ∀ (len : Nat) (st : List (MTree × Nat)),
    clean t = true → wf t = true → len = count t → goodStack st = true →
    goodStack (iterPush total t len st) = true ∧
    stackRest (iterPush total t len st) = toList t ++ stackRest st := by
  induction t with
  | nil =>
      intro len st _hc _hw _hlen hst
      rw [iterPush_nil]
      exact ⟨hst, by simp⟩
  | node v s p idx rv l r ihl ihr =>
      intro len st hc hw hlen hst
      obtain ⟨hp, hrv, hcl, hcr⟩ := (clean_node_iff v s p idx rv l r).mp hc
      subst hp
      subst hrv
      obtain ⟨hwl, hwr, hidx, _hsum⟩ :=
        (wf_node_iff v s 0 idx false l r).mp hw
      have hs : setup (MTree.node v s 0 idx false l r) total =
          MTree.node v s 0 idx false l r := setup_clean _ total hc
      rw [iterPush_unfold len st hs]
      have hg2 : goodStack
          ((MTree.node v s 0 idx false l r, len) :: st) = true := by
        simp [goodStack, goodEntry, hc, hw, hst, hlen]
      obtain ⟨hg3, hr3⟩ :=
        ihl idx ((MTree.node v s 0 idx false l r, len) :: st) hcl hwl hidx hg2
      refine ⟨hg3, ?_⟩
      rw [hr3, toList_clean_node]
      simp [stackRest, entryRest]

theorem iterNextDbg_good (total : Nat) (e : MTree × Nat)
    (rest : List (MTree × Nat)) (hst : goodStack (e :: rest) = true) :
    ∃ v st2,
      iterNextDbg total (e :: rest) = some (.ok (v, st2)) ∧
      goodStack st2 = true ∧
      stackRest (e :: rest) = v :: stackRest st2 := by
  obtain ⟨f, len⟩ := e
  have h2 : goodEntry (f, len) = true ∧ goodStack rest = true := by
    simpa [goodStack] using hst
  obtain ⟨hge, hrest⟩ := h2
  cases f with
  | nil => simp [goodEntry] at hge
  | node v s p idx rv l r =>
      have h3 : clean (MTree.node v s p idx rv l r) = true ∧
          wf (MTree.node v s p idx rv l r) = true ∧
          len = count (MTree.node v s p idx rv l r) := by
        simpa [goodEntry, and_assoc] using hge
      obtain ⟨hcn, hwn, hlen⟩ := h3
      obtain ⟨hp, hrv, hcl, hcr⟩ := (clean_node_iff v s p idx rv l r).mp hcn
      subst hp
      subst hrv
      obtain ⟨hwl, hwr, hidx, _hsum⟩ :=
        (wf_node_iff v s 0 idx false l r).mp hwn
      simp only [count_node] at hlen
      obtain ⟨hg2, hr2⟩ :=
        iterPush_good total r (len - idx - 1) rest hcr hwr (by omega) hrest
      refine ⟨v, iterPush total r (len - idx - 1) rest, ?_, hg2, ?_⟩
      · simp only [iterNextDbg]
        rw [if_neg (by omega)]
      · rw [hr2]
        simp [stackRest, entryRest]

theorem iterCollectDbg_good (total : Nat) :
    ∀ (fuel : Nat) (st : List (MTree × Nat)) (acc : List Int),
    goodStack st = true → (stackRest st).length ≤ fuel →
    iterCollectDbg total fuel st acc = .ok (acc.reverse ++ stackRest st) := by
  intro fuel
  induction fuel with
  | zero =>
      intro st acc _hg hlen
      have h0 : stackRest st = [] :=
        List.length_eq_zero.mp (Nat.le_zero.mp hlen)
      rw [h0]
      simp [iterCollectDbg]
  | succ fuel ih =>
      intro st acc hg hlen
      cases st with
      | nil => simp [iterCollectDbg, iterNextDbg, stackRest]
      | cons e rest =>
          obtain ⟨v, st2, hnext, hg2, hrest⟩ :=
            iterNextDbg_good total e rest hg
          have hlen2 : (stackRest st2).length ≤ fuel := by
            have hc := congrArg List.length hrest
            simp at hc
            omega
          simp only [iterCollectDbg, hnext]
          rw [ih st2 (v :: acc) hg2 hlen2, hrest]
          simp

/-! ### The abort paths of index and remove

NodeWrapper::index (lines 206, 212) and NodeWrapper::remove (lines 319,
337-340) unwrap the child handle before every descent, and
MasterTree::remove unwraps the root handle (line 604); these unwraps are
not assertions and abort in every build mode.  indexE and removeE are
indexT and removeT with those abort paths kept. -/

/-- NodeWrapper::index with the unwrap aborts kept: reaching a missing
child (which happens exactly when the index is out of range on a
well-formed tree) aborts in every build mode. -/
def indexE (t : MTree) (len index : Nat) : Except String Int :=
  match hs : setup t len with
  | .nil => .error "called Option::unwrap() on a None value"
  | .node v _s _p idx _rv l r =>
    if index < idx then indexE l idx index
    else if index = idx then .ok v
    else indexE r (len - idx - 1) (index - idx - 1)
termination_by count t
decreasing_by
  · have h := count_setup t len
    rw [hs] at h
    simp [count_node] at h
    omega
  · have h := count_setup t len
    rw [hs] at h
    simp [count_node] at h
    omega

theorem indexE_err {t : MTree} {len : Nat} (i : Nat)
    (hs : setup t len = .nil) :
    indexE t len i = .error "called Option::unwrap() on a None value" := by
  rw [indexE]
  split
  next => rfl
  next v2 s2 p2 i2 rv2 l2 r2 heq => rw [hs] at heq; cases heq

theorem indexE_node {t : MTree} {len : Nat} {v s p : Int} {idx : Nat}
    {rv : Bool} {l r : MTree} (i : Nat)
    (hs : setup t len = .node v s p idx rv l r) :
    indexE t len i = if i < idx then indexE l idx i
      else if i = idx then .ok v
      else indexE r (len - idx - 1) (i - idx - 1) := by
  rw [indexE]
  split
  next heq => rw [hs] at heq; cases heq
  next v2 s2 p2 i2 rv2 l2 r2 heq =>
    rw [hs] at heq
    cases heq
    rfl

/-- An out-of-range index aborts the descent of NodeWrapper::index in
every build mode: the walk always reaches a missing child and unwraps
it. -/
theorem indexE_oob (t : MTree) (len i : Nat) (hw : wf t = true)
    (hlen : len = count t) (hle : len ≤ i) :
    indexE t len i = .error "called Option::unwrap() on a None value" := by
  cases hs : setup t len with
  | nil => exact indexE_err i hs
  | node v s p idx rv l r =>
      obtain ⟨hwl, hwr, hidx, hcnt, _htl, _hsv⟩ :=
        setup_node_facts hw hlen hs
      rw [indexE_node i hs, if_neg (by omega), if_neg (by omega)]
      exact indexE_oob r (len - idx - 1) (i - idx - 1) hwr (by omega)
        (by omega)
termination_by count t
decreasing_by
  · omega

/-- NodeWrapper::remove with the unwrap aborts kept (lines 319 and
337-340); reaching a missing child aborts in every build mode.  The two
slips of the source (idx not decremented in the index-below branch, the
shrunken right subtree stored into node.left in the index-above branch)
are kept exactly as in removeT. -/
def removeE (t : MTree) (len index : Nat) (g : Nat) :
    Except String (Int × MTree × Nat) :=
  match hs : setup t len with
  | .nil => .error "called Option::unwrap() on a None value"
  | .node v _s _p idx _rv l r =>
    if index < idx then
      (removeE l idx index g).map (fun m =>
        (m.1, .node v (infoSum m.2.1 + v + infoSum r) 0 idx false m.2.1 r,
          m.2.2))
    else if index = idx then
      match l, r with
      | .nil, o => .ok (v, o, g)
      | o, .nil => .ok (v, o, g)
      | _, _ =>
        let m := merge l idx r (len - 1 - idx) g
        .ok (v, m.1, m.2)
    else
      (removeE r (len - 1 - idx) (index - 1 - idx) g).map (fun m =>
        (m.1, .node v (infoSum m.2.1 + v + infoSum (.nil)) 0 idx false
          m.2.1 .nil, m.2.2))
termination_by count t
decreasing_by
  · have h := count_setup t len
    rw [hs] at h
    simp [count_node] at h
    omega
  · have h := count_setup t len
    rw [hs] at h
    simp [count_node] at h
    omega

theorem removeE_err {t : MTree} {len : Nat} (index g : Nat)
    (hs : setup t len = .nil) :
    removeE t len index g =
      .error "called Option::unwrap() on a None value" := by
  rw [removeE]
  split
  next => rfl
  next v2 s2 p2 i2 rv2 l2 r2 heq => rw [hs] at heq; cases heq

theorem removeE_gt2 {t : MTree} {len : Nat} (index g : Nat)
    {v s p : Int} {idx : Nat} {rv : Bool} {l r : MTree}
    (hs : setup t len = .node v s p idx rv l r) (h1 : ¬ index < idx)
    (h2 : ¬ index = idx) :
    removeE t len index g =
      (removeE r (len - 1 - idx) (index - 1 - idx) g).map (fun m =>
        (m.1, .node v (infoSum m.2.1 + v + infoSum (.nil)) 0 idx false
          m.2.1 .nil, m.2.2)) := by
  rw [removeE]
  split
  next heq => rw [hs] at heq; cases heq
  next v2 s2 p2 i2 rv2 l2 r2 heq =>
    rw [hs] at heq
    cases heq
    rw [if_neg h1, if_neg h2]

/-- An out-of-range index aborts NodeWrapper::remove in every build
mode: the descent always reaches a missing right child and unwraps it. -/
theorem removeE_oob (t : MTree) (len index g : Nat) (hw : wf t = true)
    (hlen : len = count t) (hle : len ≤ index) :
    removeE t len index g =
      .error "called Option::unwrap() on a None value" := by
  cases hs : setup t len with
  | nil => exact removeE_err index g hs
  | node v s p idx rv l r =>
      obtain ⟨hwl, hwr, hidx, hcnt, _htl, _hsv⟩ :=
        setup_node_facts hw hlen hs
      rw [removeE_gt2 index g hs (by omega) (by omega),
        removeE_oob r (len - 1 - idx) (index - 1 - idx) g hwr (by omega)
          (by omega)]
      rfl
termination_by count t
decreasing_by
  · omega

end MTree

/-! ## The MasterTree facade (lines 509-826) -/

/-- MasterTree<M> = (Option root handle, len, rng) (line 510). -/
structure MasterT where
  root : MTree
  len : Nat
  rng : Nat
deriving DecidableEq

/-- MasterTree::new (lines 518-520) with the given generator state; the
compile-time default state is rngSeed applied to the source bytes. -/
def mkEmpty (g : Nat) : MasterT := ⟨.nil, 0, g⟩

/-- MasterTree::merge (lines 542-557); the length-overflow check is
modelled in mergeChecked. -/
def mergeM (a b : MasterT) : MasterT :=
  match a.root, b.root with
  | .nil, v => ⟨v, a.len + b.len, a.rng⟩
  | v, .nil => ⟨v, a.len + b.len, a.rng⟩
  | l, r =>
    let m := MTree.merge l a.len r b.len a.rng
    ⟨m.1, a.len + b.len, m.2⟩

/-- MasterTree::split (lines 569-574): the left tree keeps the parent
generator state, the right one receives the fork made by rng.make(). -/
def splitM (t : MasterT) (i : Nat) : MasterT × MasterT :=
  let pr := MTree.splitT t.root t.len i
  (⟨pr.1, i, t.rng⟩, ⟨pr.2, t.len - i, (rngMake t.rng).1⟩)

/-- MasterTree::insert (lines 586-591). -/
def insertM (t : MasterT) (i : Nat) (x : Int) : MasterT :=
  let m := MTree.insertT t.root t.len i x t.rng
  ⟨m.1, t.len + 1, m.2⟩

/-- MasterTree::remove (lines 602-608). -/
def removeM (t : MasterT) (i : Nat) : Int × MasterT :=
  let m := MTree.removeT t.root t.len i t.rng
  (m.1, ⟨m.2.1, t.len - 1, m.2.2⟩)

/-- MasterTree::reverse (lines 615-619): toggle the root's rev flag. -/
def reverseM (t : MasterT) : MasterT := ⟨MTree.toggleRev t.root, t.len, t.rng⟩

/-- MasterTree's Index operator (lines 793-802). -/
def indexM (t : MasterT) (i : Nat) : Int := MTree.indexT t.root t.len i

/-- MasterTree::prod (lines 677-743) after normalizing the range bounds
to a half-open pair a..b (Unbounded becomes 0 / len, an inclusive end
becomes end+1). -/
def prodM (t : MasterT) (a b : Nat) : Int :=
  if a = b then 0 else MTree.prodGo t.root t.len a b

/-- MasterTree::apply (lines 754-784), bounds normalized as in prodM. -/
def applyM (t : MasterT) (a b : Nat) (lz : Int) : MasterT :=
  if a = b then t else ⟨MTree.applyT t.root t.len a b lz, t.len, t.rng⟩

/-- MasterTree::iter (lines 622-666) collected to a list, in a debug
build (arithmetic underflow panics). -/
def iterM (t : MasterT) : Except String (List Int) :=
  MTree.iterCollectDbg t.len (t.len + 1)
    (MTree.iterPush t.len t.root t.len []) []

/-- The logical sequence a facade tree denotes. -/
def toListM (t : MasterT) : List Int := MTree.toList t.root

/-- Facade invariant: the root subtree is well-formed and the stored len
equals the number of reachable elements. -/
def wfM (t : MasterT) : Bool :=
  MTree.wf t.root && decide (t.len = MTree.count t.root)

/-! ## Build-mode-sensitive entry points (for the error-handling claims)

The dbg flag models cfg(debug_assertions): debug_assert! and the
cfg!-guarded asserts run only when it is true; Option::unwrap and
checked_add().expect abort in every build mode. -/

def USIZE : Nat := 2 ^ 64

/-- MasterTree::insert (lines 586-591): debug_assert!(index <= len) plus
the unconditional checked_add on the length. -/
def insertChecked (dbg : Bool) (t : MasterT) (i : Nat) (x : Int) :
    Except String MasterT :=
  if dbg = true ∧ ¬ i ≤ t.len then .error "assertion failed: index <= self.len()"
  else if t.len + 1 ≥ USIZE then .error "MasterTree length overflow"
  else .ok (insertM t i x)

/-- MasterTree::merge (lines 542-557): the length overflow check is a
checked_add().expect, performed in every build mode. -/
def mergeChecked (_dbg : Bool) (a b : MasterT) : Except String MasterT :=
  if a.len + b.len ≥ USIZE then .error "MasterTree length overflow"
  else .ok (mergeM a b)

/-- MasterTree::split (lines 569-574): debug_assert!(index <= len) only;
in a release build an oversized index reaches self.1 - index, which
wraps, producing a tree whose stored length is huge — no abort. -/
def splitChecked (dbg : Bool) (t : MasterT) (i : Nat) :
    Except String (MasterT × MasterT) :=
  if dbg = true ∧ ¬ i ≤ t.len then .error "assertion failed: index <= self.len()"
  else
    let pr := MTree.splitT t.root t.len i
    .ok (⟨pr.1, i, t.rng⟩,
      ⟨pr.2, (t.len + USIZE - i) % USIZE, (rngMake t.rng).1⟩)

/-- MasterTree::remove (lines 602-608): debug_assert!(index < len),
then self.0.take().unwrap() on the root handle — an abort in every build
mode on the empty tree — and the NodeWrapper::remove descent with its
unconditional child unwraps (removeE). -/
def removeChecked (dbg : Bool) (t : MasterT) (i : Nat) :
    Except String (Int × MasterT) :=
  if dbg = true ∧ ¬ i < t.len then .error "assertion failed: index < self.len()"
  else if t.root = .nil then .error "called Option::unwrap() on a None value"
  else (MTree.removeE t.root t.len i t.rng).map (fun m =>
    (m.1, ⟨m.2.1, t.len - 1, m.2.2⟩))

/-- Index operator (lines 793-802): debug_assert!(index < len), then
unreachable!() on the empty tree and the NodeWrapper::index descent with
its unconditional child unwraps (indexE) — both abort paths exist in
every build mode. -/
def indexChecked (dbg : Bool) (t : MasterT) (i : Nat) : Except String Int :=
  if dbg = true ∧ ¬ i < t.len then .error "assertion failed: index < self.len()"
  else if t.root = .nil then .error "internal error: entered unreachable code"
  else MTree.indexE t.root t.len i

/-- MasterTree::prod (lines 677-743) in a debug build: the bound asserts
of lines 682-693 and 705 are compiled in (they are cfg!(debug_assertions)
guarded and absent from a release build, whose unchecked descent is not
modelled here); bounds already normalized to a..b. -/
def prodCheckedDbg (t : MasterT) (a b : Nat) : Except String Int :=
  if ¬ (a ≤ t.len ∧ b ≤ t.len ∧ a ≤ b) then
    .error "assertion failed: range within 0..self.len()"
  else .ok (prodM t a b)

/-- MasterTree::apply (lines 754-784) in a debug build: bound asserts as
in prodCheckedDbg. -/
def applyCheckedDbg (t : MasterT) (a b : Nat) (lz : Int) :
    Except String MasterT :=
  if ¬ (a ≤ t.len ∧ b ≤ t.len ∧ a ≤ b) then
    .error "assertion failed: range within 0..self.len()"
  else .ok (applyM t a b lz)

/-! ## Facade-level correctness lemmas -/

theorem wfM_iff (t : MasterT) :
    wfM t = true ↔ MTree.wf t.root = true ∧ t.len = MTree.count t.root := by
  simp [wfM]

theorem length_toListM (t : MasterT) (hw : wfM t = true) :
    (toListM t).length = t.len := by
  rw [wfM_iff] at hw
  rw [toListM, MTree.length_toList, hw.2]

/-- MasterTree::insert at the facade level. -/
theorem insertM_spec (t : MasterT) (i : Nat) (x : Int) (hw : wfM t = true)
    (hi : i ≤ t.len) :
    toListM (insertM t i x) = MTree.insertAt i x (toListM t) ∧
    wfM (insertM t i x) = true ∧ (insertM t i x).len = t.len + 1 := by
  rw [wfM_iff] at hw
  obtain ⟨hw1, hw2⟩ := hw
  obtain ⟨h1, h2, h3⟩ :=
    MTree.insertT_spec t.root t.len i x t.rng hw1 hw2 (by omega)
  exact ⟨h1, by rw [wfM_iff]; exact ⟨h2, by rw [insertM]; simp [h3]; omega⟩,
    rfl⟩

/-- MasterTree::split at the facade level. -/
theorem splitM_spec (t : MasterT) (i : Nat) (hw : wfM t = true)
    (hi : i ≤ t.len) :
    toListM (splitM t i).1 = (toListM t).take i ∧
    toListM (splitM t i).2 = (toListM t).drop i ∧
    wfM (splitM t i).1 = true ∧ wfM (splitM t i).2 = true ∧
    (splitM t i).1.len = i ∧ (splitM t i).2.len = t.len - i := by
  rw [wfM_iff] at hw
  obtain ⟨hw1, hw2⟩ := hw
  obtain ⟨h1, h2, h3, h4, h5, h6⟩ :=
    MTree.splitT_spec t.root t.len i hw1 hw2 (by omega)
  refine ⟨h1, h2, ?_, ?_, rfl, rfl⟩
  · rw [wfM_iff]
    exact ⟨h3, h5.symm⟩
  · rw [wfM_iff]
    refine ⟨h4, ?_⟩
    show t.len - i = (MTree.splitT t.root t.len i).2.count
    omega

/-- MasterTree::merge at the facade level. -/
theorem mergeM_spec (a b : MasterT) (hwa : wfM a = true)
    (hwb : wfM b = true) :
    toListM (mergeM a b) = toListM a ++ toListM b ∧
    wfM (mergeM a b) = true ∧ (mergeM a b).len = a.len + b.len := by
  rw [wfM_iff] at hwa hwb
  obtain ⟨ha1, ha2⟩ := hwa
  obtain ⟨hb1, hb2⟩ := hwb
  cases hra : a.root with
  | nil =>
      have hm : mergeM a b = ⟨b.root, a.len + b.len, a.rng⟩ := by
        simp only [mergeM, hra]
      rw [hm]
      refine ⟨by simp [toListM, hra], ?_, rfl⟩
      rw [wfM_iff]
      refine ⟨hb1, ?_⟩
      show a.len + b.len = MTree.count b.root
      rw [hra] at ha2
      simp [MTree.count] at ha2
      omega
  | node v s p idx rv l r =>
      cases hrb : b.root with
      | nil =>
          have hm : mergeM a b =
              ⟨.node v s p idx rv l r, a.len + b.len, a.rng⟩ := by
            simp only [mergeM, hra, hrb]
          rw [hm]
          refine ⟨by simp [toListM, hra, hrb], ?_, rfl⟩
          rw [wfM_iff]
          refine ⟨by rw [← hra]; exact ha1, ?_⟩
          show a.len + b.len = MTree.count (.node v s p idx rv l r)
          rw [hrb] at hb2
          simp [MTree.count] at hb2
          rw [← hra] at *
          omega
      | node v2 s2 p2 idx2 rv2 l2 r2 =>
          obtain ⟨h1, h2, h3⟩ := MTree.merge_spec a.root a.len b.root b.len
            a.rng ha1 hb1 ha2 hb2
          rw [hra, hrb] at h1 h2 h3
          have hm : mergeM a b =
              ⟨(MTree.merge (.node v s p idx rv l r) a.len
                  (.node v2 s2 p2 idx2 rv2 l2 r2) b.len a.rng).1,
                a.len + b.len,
                (MTree.merge (.node v s p idx rv l r) a.len
                  (.node v2 s2 p2 idx2 rv2 l2 r2) b.len a.rng).2⟩ := by
            simp only [mergeM, hra, hrb]
          rw [hm]
          refine ⟨by rw [toListM, h1, toListM, toListM, hra, hrb], ?_, rfl⟩
          rw [wfM_iff]
          refine ⟨h2, ?_⟩
          show a.len + b.len = _
          rw [h3, ← hra, ← hrb]
          omega

/-- MasterTree::reverse at the facade level. -/
theorem reverseM_spec (t : MasterT) (hw : wfM t = true) :
    toListM (reverseM t) = (toListM t).reverse ∧
    wfM (reverseM t) = true ∧ (reverseM t).len = t.len := by
  rw [wfM_iff] at hw
  obtain ⟨hw1, hw2⟩ := hw
  refine ⟨MTree.toList_toggleRev t.root, ?_, rfl⟩
  rw [wfM_iff]
  exact ⟨MTree.wf_toggleRev t.root hw1,
    by simp [reverseM, MTree.count_toggleRev, hw2]⟩

/-- The index operator at the facade level. -/
theorem indexM_spec (t : MasterT) (i : Nat) (hw : wfM t = true)
    (hi : i < t.len) :
    indexM t i = (toListM t).getD i 0 := by
  rw [wfM_iff] at hw
  obtain ⟨hw1, hw2⟩ := hw
  exact MTree.indexT_correct t.root t.len i hw1 hw2 (by omega)

/-- MasterTree::prod at the facade level, on normalized bounds. -/
theorem prodM_spec (t : MasterT) (a b : Nat) (hw : wfM t = true)
    (hab : a ≤ b) (hb : b ≤ t.len) :
    prodM t a b = (((toListM t).take b).drop a).sum := by
  rw [wfM_iff] at hw
  obtain ⟨hw1, hw2⟩ := hw
  by_cases heq : a = b
  · subst heq
    rw [prodM, if_pos rfl,
      List.drop_eq_nil_of_le (by rw [List.length_take]; omega)]
    rfl
  · rw [prodM, if_neg heq]
    exact MTree.prodGo_spec t.root t.len a b hw1 hw2 (by omega) (by omega)

/-- MasterTree::apply at the facade level, on normalized bounds. -/
theorem applyM_spec (t : MasterT) (a b : Nat) (lz : Int)
    (hw : wfM t = true) (hab : a ≤ b) (hb : b ≤ t.len) :
    toListM (applyM t a b lz) =
      (toListM t).take a ++
        (((toListM t).take b).drop a).map (fun x => x + lz) ++
        (toListM t).drop b ∧
    wfM (applyM t a b lz) = true ∧ (applyM t a b lz).len = t.len := by
  rw [wfM_iff] at hw
  obtain ⟨hw1, hw2⟩ := hw
  by_cases heq : a = b
  · subst heq
    rw [applyM, if_pos rfl]
    refine ⟨?_, by rw [wfM_iff]; exact ⟨hw1, hw2⟩, rfl⟩
    rw [List.drop_eq_nil_of_le (by rw [List.length_take]; omega)]
    simp
  · obtain ⟨h1, h2, h3⟩ := MTree.applyT_spec t.root t.len a b lz hw1 hw2
      (by omega) (by omega)
    rw [applyM, if_neg heq]
    refine ⟨h1, ?_, rfl⟩
    rw [wfM_iff]
    exact ⟨h2, by simp [h3]; omega⟩

/-! ## Sequences of public operations (for the order and isolation claims) -/

/-- A sequence of insert(index, value) calls. -/
def insertsM (t : MasterT) : List (Nat × Int) → MasterT
  | [] => t
  | (i, x) :: rest => insertsM (insertM t i x) rest

/-- Every insert index is within bounds at its time, starting from a tree
of the given length. -/
def validInserts (n : Nat) : List (Nat × Int) → Bool
  | [] => true
  | (i, _) :: rest => decide (i ≤ n) && validInserts (n + 1) rest

/-- The same positional insertions performed on a plain list. -/
def listInserts (xs : List Int) : List (Nat × Int) → List Int
  | [] => xs
  | (i, x) :: rest => listInserts (MTree.insertAt i x xs) rest

theorem insertsM_spec (ops : List (Nat × Int)) : ∀ (t : MasterT),
    wfM t = true → validInserts t.len ops = true →
    toListM (insertsM t ops) = listInserts (toListM t) ops ∧
    wfM (insertsM t ops) = true ∧
    (insertsM t ops).len = t.len + ops.length := by
  induction ops with
  | nil =>
      intro t hw _hv
      exact ⟨rfl, hw, by simp [insertsM]⟩
  | cons op rest ih =>
      intro t hw hv
      obtain ⟨i, x⟩ := op
      rw [validInserts] at hv
      simp only [Bool.and_eq_true, decide_eq_true_eq] at hv
      obtain ⟨hi, hrest⟩ := hv
      obtain ⟨h1, h2, h3⟩ := insertM_spec t i x hw hi
      rw [insertsM, listInserts]
      obtain ⟨g1, g2, g3⟩ := ih (insertM t i x) h2 (by rw [h3]; exact hrest)
      refine ⟨by rw [g1, h1], g2, ?_⟩
      rw [g3, h3]
      simp
      omega

/-- Trees obtained by insertions alone carry no pending lazy state. -/
theorem clean_insertM (t : MasterT) (i : Nat) (x : Int)
    (hc : MTree.clean t.root = true) :
    MTree.clean (insertM t i x).root = true :=
  MTree.clean_insertT t.root t.len i x t.rng hc

theorem clean_insertsM (ops : List (Nat × Int)) : ∀ (t : MasterT),
    MTree.clean t.root = true →
    MTree.clean (insertsM t ops).root = true := by
  induction ops with
  | nil =>
      intro t hc
      simpa [insertsM] using hc
  | cons op rest ih =>
      intro t hc
      obtain ⟨i, x⟩ := op
      rw [insertsM]
      exact ih (insertM t i x) (clean_insertM t i x hc)

/-- On a well-formed tree without pending lazy state, collecting the
iterator succeeds and yields exactly the denoted sequence: the length
slip of Iter::next is harmless because every setup it performs is the
identity. -/
theorem iterM_clean (t : MasterT) (hc : MTree.clean t.root = true)
    (hw : wfM t = true) : iterM t = .ok (toListM t) := by
  rw [wfM_iff] at hw
  obtain ⟨hw1, hw2⟩ := hw
  obtain ⟨hg, hr⟩ := MTree.iterPush_good t.len t.root t.len [] hc hw1 hw2 rfl
  rw [iterM, MTree.iterCollectDbg_good t.len (t.len + 1) _ [] hg ?_]
  · rw [hr]
    simp [toListM, MTree.stackRest]
  · rw [hr]
    simp only [MTree.stackRest, List.append_nil, MTree.length_toList]
    omega

/-! ## The nonzero invariant of the generator state (C10) -/

theorem shiftRight_fixpoint (y k : Nat) (hk : 0 < k) (hy : y < 2 ^ 64)
    (h : y = y >>> k) : y = 0 := by
  have hall : ∀ n, y = y >>> (k * n) := by
    intro n
    induction n with
    | zero => simp
    | succ m ih =>
        rw [Nat.mul_succ, Nat.shiftRight_add, ← ih, ← h]
  have h64 := hall 64
  rw [Nat.shiftRight_eq_div_pow] at h64
  have hlt : y < 2 ^ (k * 64) :=
    lt_of_lt_of_le hy (Nat.pow_le_pow_right (by norm_num) (by omega))
  rw [Nat.div_eq_of_lt hlt] at h64
  exact h64

theorem mulPow_fixpoint (s k : Nat) (hk : 0 < k)
    (h : s = (s * 2 ^ k) % 2 ^ 64) : s = 0 := by
  have hall : ∀ n, s = (s * 2 ^ (k * n)) % 2 ^ 64 := by
    intro n
    induction n with
    | zero =>
        simp only [Nat.mul_zero, pow_zero, Nat.mul_one]
        rw [Nat.mod_eq_of_lt]
        rw [h]
        exact Nat.mod_lt _ (by positivity)
    | succ m ih =>
        rw [Nat.mul_succ, pow_add, ← Nat.mul_assoc, ← Nat.mod_mul_mod,
          ← ih]
        exact h
  have h64 := hall 64
  have hfac : 2 ^ (k * 64) = 2 ^ (k * 64 - 64) * 2 ^ 64 := by
    rw [← pow_add]
    congr 1
    omega
  rw [hfac, ← Nat.mul_assoc, Nat.mul_mod_left] at h64
  exact h64

theorem shiftLeft_mod_fixpoint (s k : Nat) (hk : 0 < k)
    (h : s = (s <<< k) % 2 ^ 64) : s = 0 := by
  rw [Nat.shiftLeft_eq] at h
  exact mulPow_fixpoint s k hk h

/-- One xorshift pass x := x xor ((x shl k) mod 2^64) fixes only zero. -/
theorem xorShiftLeft_ne_zero (s k : Nat) (hk : 0 < k) (hs : s < 2 ^ 64)
    (h0 : s ≠ 0) : s ^^^ ((s <<< k) % 2 ^ 64) ≠ 0 := by
  intro hx
  exact h0 (shiftLeft_mod_fixpoint s k hk (Nat.xor_eq_zero.mp hx))

/-- One xorshift pass x := x xor (x shr k) fixes only zero. -/
theorem xorShiftRight_ne_zero (s k : Nat) (hk : 0 < k) (hs : s < 2 ^ 64)
    (h0 : s ≠ 0) : s ^^^ (s >>> k) ≠ 0 := by
  intro hx
  exact h0 (shiftRight_fixpoint s k hk hs (Nat.xor_eq_zero.mp hx))

theorem shiftRight_le_self (x k : Nat) : x >>> k ≤ x := by
  rw [Nat.shiftRight_eq_div_pow]
  exact Nat.div_le_self x (2 ^ k)

theorem rngGen_props (s : Nat) (hs : s < 2 ^ 64) (h0 : s ≠ 0) :
    rngGen s ≠ 0 ∧ rngGen s < 2 ^ 64 := by
  rw [rngGen]
  have ha_lt : s ^^^ ((s <<< 7) % 2 ^ 64) < 2 ^ 64 :=
    Nat.xor_lt_two_pow hs (Nat.mod_lt _ (by norm_num))
  have ha_ne : s ^^^ ((s <<< 7) % 2 ^ 64) ≠ 0 :=
    xorShiftLeft_ne_zero s 7 (by norm_num) hs h0
  exact ⟨xorShiftRight_ne_zero _ 9 (by norm_num) ha_lt ha_ne,
    Nat.xor_lt_two_pow ha_lt
      (lt_of_le_of_lt (shiftRight_le_self _ 9) ha_lt)⟩

theorem rngMake_props (s : Nat) (hs : s < 2 ^ 64) (h0 : s ≠ 0) :
    (rngMake s).1 ≠ 0 ∧ (rngMake s).1 < 2 ^ 64 ∧
    (rngMake s).2 ≠ 0 ∧ (rngMake s).2 < 2 ^ 64 := by
  obtain ⟨hg0, hglt⟩ := rngGen_props s hs h0
  rw [rngMake]
  have hr1_lt : rngGen s ^^^ (rngGen s >>> 7) < 2 ^ 64 :=
    Nat.xor_lt_two_pow hglt
      (lt_of_le_of_lt (shiftRight_le_self _ 7) hglt)
  have hr1_ne : rngGen s ^^^ (rngGen s >>> 7) ≠ 0 :=
    xorShiftRight_ne_zero _ 7 (by norm_num) hglt hg0
  exact ⟨xorShiftLeft_ne_zero _ 9 (by norm_num) hr1_lt hr1_ne,
    Nat.xor_lt_two_pow hr1_lt (Nat.mod_lt _ (by norm_num)), hg0, hglt⟩

theorem rngSeed_props (bytes : List Nat) :
    rngSeed bytes ≠ 0 ∧ rngSeed bytes < 2 ^ 64 := by
  rw [rngSeed]
  have hfold : ∀ (l : List Nat) (pr : Nat × Nat), pr.1 < 2 ^ 64 →
      (l.foldl (fun (pr : Nat × Nat) b =>
        ((pr.1 + pr.2 * b) % 2 ^ 64, (pr.2 * 0xf285692d6bf31f57) % 2 ^ 64))
        pr).1 < 2 ^ 64 := by
    intro l
    induction l with
    | nil => intro pr h; exact h
    | cons x xs ih =>
        intro pr _h
        exact ih _ (Nat.mod_lt _ (by norm_num))
  split
  · exact ⟨by norm_num, by norm_num⟩
  · next hne =>
      exact ⟨hne, hfold bytes (0, 1) (by norm_num)⟩

/-! ## Mutating operations as data (for the clone-isolation claim) -/

/-- C1: for the additive manager, prod over a normalized in-bounds range
a..b returns the fold (sum) of exactly the elements of that range, and
after apply(a..b, lz) every element inside the range has the operator
applied exactly once and every element outside it is unchanged, as
observed by subsequent index and prod queries on the updated tree. -/
theorem C1_prod_apply_additive (t : MasterT) (a b : Nat) (lz : Int)
    (hw : wfM t = true) (hab : a ≤ b) (hb : b ≤ t.len) :
    prodM t a b = (((toListM t).take b).drop a).sum ∧
    toListM (applyM t a b lz) =
      (toListM t).take a ++
        (((toListM t).take b).drop a).map (fun x => x + lz) ++
        (toListM t).drop b ∧
    (∀ j, j < t.len →
      indexM (applyM t a b lz) j = (toListM (applyM t a b lz)).getD j 0) ∧
    (∀ c d, c ≤ d → d ≤ t.len →
      prodM (applyM t a b lz) c d =
        (((toListM (applyM t a b lz)).take d).drop c).sum) := by
  obtain ⟨h1, h2, h3⟩ := applyM_spec t a b lz hw hab hb
  refine ⟨prodM_spec t a b hw hab hb, h1, ?_, ?_⟩
  · intro j hj
    exact indexM_spec _ j h2 (by rw [h3]; omega)
  · intro c d hcd hd
    exact prodM_spec _ c d h2 hcd (by rw [h3]; omega)

theorem C1_witness :
    (wfM (mkEmpty 0) = true ∧ (0 : Nat) ≤ 0 ∧ (0 : Nat) ≤ (mkEmpty 0).len) ∧
    prodM (mkEmpty 0) 0 0 = (((toListM (mkEmpty 0)).take 0).drop 0).sum :=
  ⟨⟨rfl, by decide, by decide⟩,
    (C1_prod_apply_additive (mkEmpty 0) 0 0 5 rfl (by decide) (by decide)).1⟩

/-- C2: for every generator state and every sequence of insert(index, v)
calls each in bounds at its time, the resulting tree's logical order is
the order obtained by the same positional insertions on a plain list;
the index operator reproduces that list at every position, and
collecting the iterator also yields exactly that list (insert-only
trees carry no pending lazy state, so the iterator's setup calls are
identities and its traversal succeeds). -/
theorem C2_insert_order (g : Nat) (ops : List (Nat × Int))
    (hv : validInserts 0 ops = true) :
    toListM (insertsM (mkEmpty g) ops) = listInserts [] ops ∧
    (insertsM (mkEmpty g) ops).len = ops.length ∧
    (∀ j, j < ops.length →
      indexM (insertsM (mkEmpty g) ops) j =
        (listInserts [] ops).getD j 0) ∧
    iterM (insertsM (mkEmpty g) ops) = .ok (listInserts [] ops) := by
  have hw : wfM (mkEmpty g) = true := by
    rw [wfM_iff]
    exact ⟨rfl, rfl⟩
  obtain ⟨h1, h2, h3⟩ := insertsM_spec ops (mkEmpty g) hw hv
  rw [show toListM (mkEmpty g) = ([] : List Int) from rfl] at h1
  have hcl : MTree.clean (insertsM (mkEmpty g) ops).root = true :=
    clean_insertsM ops (mkEmpty g) rfl
  refine ⟨h1, by rw [h3]; simp [mkEmpty], ?_, ?_⟩
  · intro j hj
    rw [indexM_spec _ j h2 (by rw [h3]; simp [mkEmpty]; omega), h1]
  · rw [iterM_clean _ hcl h2, h1]

theorem C2_witness :
    validInserts 0 [(0, 5), (1, 7), (0, 9)] = true ∧
    toListM (insertsM (mkEmpty 3) [(0, 5), (1, 7), (0, 9)]) =
      listInserts [] [(0, 5), (1, 7), (0, 9)] ∧
    iterM (insertsM (mkEmpty 3) [(0, 5), (1, 7), (0, 9)]) =
      .ok (listInserts [] [(0, 5), (1, 7), (0, 9)]) :=
  ⟨by decide, (C2_insert_order 3 [(0, 5), (1, 7), (0, 9)] (by decide)).1,
    (C2_insert_order 3 [(0, 5), (1, 7), (0, 9)] (by decide)).2.2.2⟩

/-- C3: remove(2) on the reachable, well-formed three-element tree
[1, 2, 3] (root 2, left child 1, right child 3, built by three in-bounds
inserts from the generator state 0) returns 3 — the value the index
operator reads at position 2 — and decrements the stored length to 2,
but the remaining sequence is [2], one element, instead of [1, 2]: on
this input the recursion takes the Greater branch of
NodeWrapper::remove, whose line 342 writes the shrunken right subtree
into node.left, discarding the left subtree that held 1.  This refutes
the remaining-sequence conjunct of the claim. -/
theorem C3_remove_structure_bug :
    toListM (insertM (insertM (insertM (mkEmpty 0) 0 2) 0 1) 2 3) =
      [1, 2, 3] ∧
    wfM (insertM (insertM (insertM (mkEmpty 0) 0 2) 0 1) 2 3) = true ∧
    indexM (insertM (insertM (insertM (mkEmpty 0) 0 2) 0 1) 2 3) 2 = 3 ∧
    (removeM (insertM (insertM (insertM (mkEmpty 0) 0 2) 0 1) 2 3) 2).1 = 3 ∧
    (removeM (insertM (insertM (insertM (mkEmpty 0) 0 2) 0 1) 2 3) 2).2.len = 2 ∧
    toListM (removeM (insertM (insertM (insertM (mkEmpty 0) 0 2) 0 1) 2 3) 2).2 =
      [2] ∧
    (toListM
      (removeM (insertM (insertM (insertM (mkEmpty 0) 0 2) 0 1) 2 3) 2).2).length =
      1 := by
  have e1 : insertM (mkEmpty 0) 0 2 =
      ⟨.node 2 2 0 0 false .nil .nil, 1, 0⟩ := by
    show (⟨(MTree.insertT .nil 0 0 2 0).1, 0 + 1,
      (MTree.insertT .nil 0 0 2 0).2⟩ : MasterT) = _
    rw [MTree.insertT_nil]
  have e2 : insertM (⟨.node 2 2 0 0 false .nil .nil, 1, 0⟩ : MasterT) 0 1 =
      ⟨.node 2 3 0 1 false (.node 1 1 0 0 false .nil .nil) .nil, 2, 0⟩ := by
    show (⟨(MTree.insertT (.node 2 2 0 0 false .nil .nil) 1 0 1 0).1, 1 + 1,
      (MTree.insertT (.node 2 2 0 0 false .nil .nil) 1 0 1 0).2⟩ : MasterT) = _
    rw [MTree.insertT_unfold 0 1 0
        (show MTree.setup (.node 2 2 0 0 false .nil .nil) 1 =
          .node 2 2 0 0 false .nil .nil from rfl),
      if_pos (show (rngChoose 0 1 1).1 = true from by decide),
      if_neg (show ¬ (0 : Nat) < 0 from by decide), MTree.insertT_nil]
    decide
  have e3 : insertM
      (⟨.node 2 3 0 1 false (.node 1 1 0 0 false .nil .nil) .nil, 2, 0⟩ :
        MasterT) 2 3 =
      ⟨.node 2 6 0 1 false (.node 1 1 0 0 false .nil .nil)
        (.node 3 3 0 0 false .nil .nil), 3, 0⟩ := by
    show (⟨(MTree.insertT
        (.node 2 3 0 1 false (.node 1 1 0 0 false .nil .nil) .nil)
        2 2 3 0).1, 2 + 1,
      (MTree.insertT
        (.node 2 3 0 1 false (.node 1 1 0 0 false .nil .nil) .nil)
        2 2 3 0).2⟩ : MasterT) = _
    rw [MTree.insertT_unfold 2 3 0
        (show MTree.setup
            (.node 2 3 0 1 false (.node 1 1 0 0 false .nil .nil) .nil) 2 =
          .node 2 3 0 1 false (.node 1 1 0 0 false .nil .nil) .nil from by
            decide),
      if_pos (show (rngChoose 0 2 1).1 = true from by decide),
      if_pos (show (1 : Nat) < 2 from by decide), MTree.insertT_nil]
    decide
  have e4 : removeM
      (⟨.node 2 6 0 1 false (.node 1 1 0 0 false .nil .nil)
        (.node 3 3 0 0 false .nil .nil), 3, 0⟩ : MasterT) 2 =
      (3, ⟨.node 2 2 0 1 false .nil .nil, 2, 0⟩) := by
    show ((MTree.removeT
        (.node 2 6 0 1 false (.node 1 1 0 0 false .nil .nil)
          (.node 3 3 0 0 false .nil .nil)) 3 2 0).1,
      (⟨(MTree.removeT
        (.node 2 6 0 1 false (.node 1 1 0 0 false .nil .nil)
          (.node 3 3 0 0 false .nil .nil)) 3 2 0).2.1, 3 - 1,
      (MTree.removeT
        (.node 2 6 0 1 false (.node 1 1 0 0 false .nil .nil)
          (.node 3 3 0 0 false .nil .nil)) 3 2 0).2.2⟩ : MasterT)) = _
    rw [MTree.removeT_gt 2 0
        (show MTree.setup
            (.node 2 6 0 1 false (.node 1 1 0 0 false .nil .nil)
              (.node 3 3 0 0 false .nil .nil)) 3 =
          .node 2 6 0 1 false (.node 1 1 0 0 false .nil .nil)
            (.node 3 3 0 0 false .nil .nil) from by decide)
        (show ¬ (2 : Nat) < 1 from by decide)
        (show ¬ (2 : Nat) = 1 from by decide),
      show (3 : Nat) - 1 - 1 = 1 from rfl,
      show (2 : Nat) - 1 - 1 = 0 from rfl,
      MTree.removeT_at_leaf 0
        (show MTree.setup (.node 3 3 0 0 false .nil .nil) 1 =
          .node 3 3 0 0 false .nil .nil from rfl)]
    decide
  rw [e1, e2, e3, e4]
  refine ⟨by decide, by decide, ?_, by decide, by decide, by decide,
    by decide⟩
  rw [indexM_spec _ 2 (by decide) (by decide)]
  decide

/-- C4: the structural invariant (stored len equals reachable element
count, idx equals the left subtree count) is not preserved by remove: on
the reachable tree [1, 2, 3] with root 2, remove(2) leaves a tree whose
stored length is 2 but which contains a single reachable element, because
the Greater branch of NodeWrapper::remove overwrites node.left. -/
theorem C4_invariant_broken_by_remove :
    wfM (insertM (insertM (insertM (mkEmpty 0) 0 2) 0 1) 2 3) = true ∧
    (insertM (insertM (insertM (mkEmpty 0) 0 2) 0 1) 2 3).len = 3 ∧
    (removeM (insertM (insertM (insertM (mkEmpty 0) 0 2) 0 1) 2 3) 2).2.len = 2 ∧
    MTree.count
      (removeM (insertM (insertM (insertM (mkEmpty 0) 0 2) 0 1) 2 3) 2).2.root = 1 ∧
    wfM (removeM (insertM (insertM (insertM (mkEmpty 0) 0 2) 0 1) 2 3) 2).2 =
      false := by
  have e1 : insertM (mkEmpty 0) 0 2 =
      ⟨.node 2 2 0 0 false .nil .nil, 1, 0⟩ := by
    show (⟨(MTree.insertT .nil 0 0 2 0).1, 0 + 1,
      (MTree.insertT .nil 0 0 2 0).2⟩ : MasterT) = _
    rw [MTree.insertT_nil]
  have e2 : insertM (⟨.node 2 2 0 0 false .nil .nil, 1, 0⟩ : MasterT) 0 1 =
      ⟨.node 2 3 0 1 false (.node 1 1 0 0 false .nil .nil) .nil, 2, 0⟩ := by
    show (⟨(MTree.insertT (.node 2 2 0 0 false .nil .nil) 1 0 1 0).1, 1 + 1,
      (MTree.insertT (.node 2 2 0 0 false .nil .nil) 1 0 1 0).2⟩ : MasterT) = _
    rw [MTree.insertT_unfold 0 1 0
        (show MTree.setup (.node 2 2 0 0 false .nil .nil) 1 =
          .node 2 2 0 0 false .nil .nil from rfl),
      if_pos (show (rngChoose 0 1 1).1 = true from by decide),
      if_neg (show ¬ (0 : Nat) < 0 from by decide), MTree.insertT_nil]
    decide
  have e3 : insertM
      (⟨.node 2 3 0 1 false (.node 1 1 0 0 false .nil .nil) .nil, 2, 0⟩ :
        MasterT) 2 3 =
      ⟨.node 2 6 0 1 false (.node 1 1 0 0 false .nil .nil)
        (.node 3 3 0 0 false .nil .nil), 3, 0⟩ := by
    show (⟨(MTree.insertT
        (.node 2 3 0 1 false (.node 1 1 0 0 false .nil .nil) .nil)
        2 2 3 0).1, 2 + 1,
      (MTree.insertT
        (.node 2 3 0 1 false (.node 1 1 0 0 false .nil .nil) .nil)
        2 2 3 0).2⟩ : MasterT) = _
    rw [MTree.insertT_unfold 2 3 0
        (show MTree.setup
            (.node 2 3 0 1 false (.node 1 1 0 0 false .nil .nil) .nil) 2 =
          .node 2 3 0 1 false (.node 1 1 0 0 false .nil .nil) .nil from by
            decide),
      if_pos (show (rngChoose 0 2 1).1 = true from by decide),
      if_pos (show (1 : Nat) < 2 from by decide), MTree.insertT_nil]
    decide
  have e4 : removeM
      (⟨.node 2 6 0 1 false (.node 1 1 0 0 false .nil .nil)
        (.node 3 3 0 0 false .nil .nil), 3, 0⟩ : MasterT) 2 =
      (3, ⟨.node 2 2 0 1 false .nil .nil, 2, 0⟩) := by
    show ((MTree.removeT
        (.node 2 6 0 1 false (.node 1 1 0 0 false .nil .nil)
          (.node 3 3 0 0 false .nil .nil)) 3 2 0).1,
      (⟨(MTree.removeT
        (.node 2 6 0 1 false (.node 1 1 0 0 false .nil .nil)
          (.node 3 3 0 0 false .nil .nil)) 3 2 0).2.1, 3 - 1,
      (MTree.removeT
        (.node 2 6 0 1 false (.node 1 1 0 0 false .nil .nil)
          (.node 3 3 0 0 false .nil .nil)) 3 2 0).2.2⟩ : MasterT)) = _
    rw [MTree.removeT_gt 2 0
        (show MTree.setup
            (.node 2 6 0 1 false (.node 1 1 0 0 false .nil .nil)
              (.node 3 3 0 0 false .nil .nil)) 3 =
          .node 2 6 0 1 false (.node 1 1 0 0 false .nil .nil)
            (.node 3 3 0 0 false .nil .nil) from by decide)
        (show ¬ (2 : Nat) < 1 from by decide)
        (show ¬ (2 : Nat) = 1 from by decide),
      show (3 : Nat) - 1 - 1 = 1 from rfl,
      show (2 : Nat) - 1 - 1 = 0 from rfl,
      MTree.removeT_at_leaf 0
        (show MTree.setup (.node 3 3 0 0 false .nil .nil) 1 =
          .node 3 3 0 0 false .nil .nil from rfl)]
    decide
  rw [e1, e2, e3, e4]
  decide

/-- C5: splitting at any in-bounds index and merging the two halves back
in order yields a tree observationally equal to the original: same
length, same element at every position, same prod on every in-bounds
range. -/
theorem C5_split_merge_roundtrip (t : MasterT) (i : Nat)
    (hw : wfM t = true) (hi : i ≤ t.len) :
    toListM (mergeM (splitM t i).1 (splitM t i).2) = toListM t ∧
    (mergeM (splitM t i).1 (splitM t i).2).len = t.len ∧
    (∀ j, j < t.len →
      indexM (mergeM (splitM t i).1 (splitM t i).2) j = indexM t j) ∧
    (∀ a b, a ≤ b → b ≤ t.len →
      prodM (mergeM (splitM t i).1 (splitM t i).2) a b = prodM t a b) := by
  obtain ⟨h1, h2, h3, h4, h5, h6⟩ := splitM_spec t i hw hi
  obtain ⟨g1, g2, g3⟩ := mergeM_spec (splitM t i).1 (splitM t i).2 h3 h4
  have htl : toListM (mergeM (splitM t i).1 (splitM t i).2) = toListM t := by
    rw [g1, h1, h2, List.take_append_drop]
  have hlen : (mergeM (splitM t i).1 (splitM t i).2).len = t.len := by
    rw [g3, h5, h6]
    omega
  refine ⟨htl, hlen, ?_, ?_⟩
  · intro j hj
    rw [indexM_spec _ j g2 (by rw [hlen]; omega), htl,
      indexM_spec t j hw hj]
  · intro a b hab hb
    rw [prodM_spec _ a b g2 hab (by rw [hlen]; omega), htl,
      prodM_spec t a b hw hab hb]

theorem C5_witness :
    (wfM (mkEmpty 0) = true ∧ (0 : Nat) ≤ (mkEmpty 0).len) ∧
    toListM (mergeM (splitM (mkEmpty 0) 0).1 (splitM (mkEmpty 0) 0).2) =
      toListM (mkEmpty 0) :=
  ⟨⟨rfl, by decide⟩,
    (C5_split_merge_roundtrip (mkEmpty 0) 0 rfl (by decide)).1⟩

/-- The insertion script of the reference test: each value is inserted at
index 0, so the resulting sequence is the reverse of the value order. -/
def c7ops : List (Nat × Int) :=
  [(0, 3), (0, 1), (0, 4), (0, 1), (0, 5), (0, 9), (0, 2), (0, 6),
   (0, 5), (0, 3), (0, 5), (0, 8), (0, 9), (0, 7), (0, 9), (0, 3)]

/-- C7: for every initial generator state, the reference scenario holds:
after the insertions the sequence reads [3,9,7,9,8,5,3,5,6,2,9,5,1,4,1,3];
reverse() gives prod(4..12) = 43 and prod(5..) = 66; after apply(7..12,+20)
and apply(..,+40), prod(4..12) = 463 and prod(5..) = 606; after split(9)
the left part has prod(3..6) = 135 and the right part prod(..5) = 292; and
merge(right, left) indexed at every position 0..16 yields exactly
[63,65,68,49,47,49,43,43,41,44,41,45,49,42,66,65]. -/
theorem C7_scenario (g : Nat) :
    prodM (reverseM (insertsM (mkEmpty g) c7ops)) 4 12 = 43 ∧
    prodM (reverseM (insertsM (mkEmpty g) c7ops)) 5 16 = 66 ∧
    prodM (applyM (applyM (reverseM (insertsM (mkEmpty g) c7ops)) 7 12 20)
      0 16 40) 4 12 = 463 ∧
    prodM (applyM (applyM (reverseM (insertsM (mkEmpty g) c7ops)) 7 12 20)
      0 16 40) 5 16 = 606 ∧
    prodM (splitM (applyM (applyM (reverseM (insertsM (mkEmpty g) c7ops))
      7 12 20) 0 16 40) 9).1 3 6 = 135 ∧
    prodM (splitM (applyM (applyM (reverseM (insertsM (mkEmpty g) c7ops))
      7 12 20) 0 16 40) 9).2 0 5 = 292 ∧
    ∀ j, j < 16 →
      indexM (mergeM
        (splitM (applyM (applyM (reverseM (insertsM (mkEmpty g) c7ops))
          7 12 20) 0 16 40) 9).2
        (splitM (applyM (applyM (reverseM (insertsM (mkEmpty g) c7ops))
          7 12 20) 0 16 40) 9).1) j =
      ([63, 65, 68, 49, 47, 49, 43, 43, 41, 44, 41, 45, 49, 42, 66, 65] :
        List Int).getD j 0 := by
  have hw0 : wfM (mkEmpty g) = true := rfl
  have hops : validInserts (mkEmpty g).len c7ops = true := by
    show validInserts 0 c7ops = true
    decide
  set t0 : MasterT := insertsM (mkEmpty g) c7ops with ht0
  obtain ⟨hl1, hw1, hn1⟩ := insertsM_spec c7ops (mkEmpty g) hw0 hops
  rw [← ht0] at hl1 hw1 hn1
  have hL0 : toListM t0 = [3, 9, 7, 9, 8, 5, 3, 5, 6, 2, 9, 5, 1, 4, 1, 3] := by
    rw [hl1]
    show listInserts [] c7ops = [3, 9, 7, 9, 8, 5, 3, 5, 6, 2, 9, 5, 1, 4, 1, 3]
    decide
  have hN0 : t0.len = 16 := by
    rw [hn1]
    rfl
  set t1 : MasterT := reverseM t0 with ht1
  obtain ⟨hl2, hw2, hn2⟩ := reverseM_spec t0 hw1
  rw [← ht1] at hl2 hw2 hn2
  have hL1 : toListM t1 = [3, 1, 4, 1, 5, 9, 2, 6, 5, 3, 5, 8, 9, 7, 9, 3] := by
    rw [hl2, hL0]
    decide
  have hN1 : t1.len = 16 := by
    rw [hn2, hN0]
  have p1 : prodM t1 4 12 = 43 := by
    rw [prodM_spec t1 4 12 hw2 (by decide) (by omega), hL1]
    decide
  have p2 : prodM t1 5 16 = 66 := by
    rw [prodM_spec t1 5 16 hw2 (by decide) (by omega), hL1]
    decide
  set t2 : MasterT := applyM t1 7 12 20 with ht2
  obtain ⟨hl3, hw3, hn3⟩ :=
    applyM_spec t1 7 12 20 hw2 (by decide) (by omega)
  rw [← ht2] at hl3 hw3 hn3
  have hL2 : toListM t2 =
      [3, 1, 4, 1, 5, 9, 2, 26, 25, 23, 25, 28, 9, 7, 9, 3] := by
    rw [hl3, hL1]
    decide
  have hN2 : t2.len = 16 := by
    rw [hn3, hN1]
  set t3 : MasterT := applyM t2 0 16 40 with ht3
  obtain ⟨hl4, hw4, hn4⟩ :=
    applyM_spec t2 0 16 40 hw3 (by decide) (by omega)
  rw [← ht3] at hl4 hw4 hn4
  have hL3 : toListM t3 =
      [43, 41, 44, 41, 45, 49, 42, 66, 65, 63, 65, 68, 49, 47, 49, 43] := by
    rw [hl4, hL2]
    decide
  have hN3 : t3.len = 16 := by
    rw [hn4, hN2]
  have p3 : prodM t3 4 12 = 463 := by
    rw [prodM_spec t3 4 12 hw4 (by decide) (by omega), hL3]
    decide
  have p4 : prodM t3 5 16 = 606 := by
    rw [prodM_spec t3 5 16 hw4 (by decide) (by omega), hL3]
    decide
  set sp : MasterT × MasterT := splitM t3 9 with hsp
  obtain ⟨hsl, hsr, hwl, hwr, hnl, hnr⟩ :=
    splitM_spec t3 9 hw4 (by omega)
  rw [← hsp] at hsl hsr hwl hwr hnl hnr
  have hSL : toListM sp.1 = [43, 41, 44, 41, 45, 49, 42, 66, 65] := by
    rw [hsl, hL3]
    decide
  have hSR : toListM sp.2 = [63, 65, 68, 49, 47, 49, 43] := by
    rw [hsr, hL3]
    decide
  have hNR : sp.2.len = 7 := by
    rw [hnr, hN3]
  have p5 : prodM sp.1 3 6 = 135 := by
    rw [prodM_spec sp.1 3 6 hwl (by decide) (by omega), hSL]
    decide
  have p6 : prodM sp.2 0 5 = 292 := by
    rw [prodM_spec sp.2 0 5 hwr (by decide) (by omega), hSR]
    decide
  set m : MasterT := mergeM sp.2 sp.1 with hm
  obtain ⟨hml, hwm, hnm⟩ := mergeM_spec sp.2 sp.1 hwr hwl
  rw [← hm] at hml hwm hnm
  have hML : toListM m =
      [63, 65, 68, 49, 47, 49, 43, 43, 41, 44, 41, 45, 49, 42, 66, 65] := by
    rw [hml, hSR, hSL]
    decide
  have hNM : m.len = 16 := by
    rw [hnm, hNR, hnl]
  refine ⟨p1, p2, p3, p4, p5, p6, ?_⟩
  intro j hj
  rw [indexM_spec m j hwm (by omega), hML]

theorem C7_witness :
    (0 : Nat) < 16 ∧
    indexM (mergeM
      (splitM (applyM (applyM (reverseM (insertsM (mkEmpty 0) c7ops))
        7 12 20) 0 16 40) 9).2
      (splitM (applyM (applyM (reverseM (insertsM (mkEmpty 0) c7ops))
        7 12 20) 0 16 40) 9).1) 0 =
    ([63, 65, 68, 49, 47, 49, 43, 43, 41, 44, 41, 45, 49, 42, 66, 65] :
      List Int).getD 0 0 :=
  ⟨by decide, (C7_scenario 0).2.2.2.2.2.2 0 (by decide)⟩

/-- C8: iterating a reachable two-element tree that holds a pending
reversal flag does not yield its len() values: in a debug build the
iterator panics with a subtraction overflow after the first element,
because Iter::next passes self.len() — the total length — to every inner
setup call (line 634) instead of the tracked per-subtree length,
corrupting idx of the reversed child; the expected sequence (what the
index operator denotes) is [20, 10]. -/
theorem C8_iter_debug_panic :
    toListM (reverseM (insertM (insertM (mkEmpty 1) 0 10) 1 20)) =
      [20, 10] ∧
    (reverseM (insertM (insertM (mkEmpty 1) 0 10) 1 20)).len = 2 ∧
    wfM (reverseM (insertM (insertM (mkEmpty 1) 0 10) 1 20)) = true ∧
    iterM (reverseM (insertM (insertM (mkEmpty 1) 0 10) 1 20)) =
      .error "attempt to subtract with overflow" := by
  have e1 : insertM (mkEmpty 1) 0 10 =
      ⟨.node 10 10 0 0 false .nil .nil, 1, 1⟩ := by
    show (⟨(MTree.insertT .nil 0 0 10 1).1, 0 + 1,
      (MTree.insertT .nil 0 0 10 1).2⟩ : MasterT) = _
    rw [MTree.insertT_nil]
  have e2 : insertM (⟨.node 10 10 0 0 false .nil .nil, 1, 1⟩ : MasterT)
      1 20 =
      ⟨.node 10 30 0 0 false .nil (.node 20 20 0 0 false .nil .nil), 2,
        129⟩ := by
    show (⟨(MTree.insertT (.node 10 10 0 0 false .nil .nil) 1 1 20 1).1,
      1 + 1,
      (MTree.insertT (.node 10 10 0 0 false .nil .nil) 1 1 20 1).2⟩ :
        MasterT) = _
    rw [MTree.insertT_unfold 1 20 1
        (show MTree.setup (.node 10 10 0 0 false .nil .nil) 1 =
          .node 10 10 0 0 false .nil .nil from rfl),
      if_pos (show (rngChoose 1 1 1).1 = true from by decide),
      if_pos (show (0 : Nat) < 1 from by decide), MTree.insertT_nil]
    decide
  have e3 : reverseM
      (⟨.node 10 30 0 0 false .nil (.node 20 20 0 0 false .nil .nil), 2,
        129⟩ : MasterT) =
      ⟨.node 10 30 0 0 true .nil (.node 20 20 0 0 false .nil .nil), 2,
        129⟩ := rfl
  have e4 : iterM
      (⟨.node 10 30 0 0 true .nil (.node 20 20 0 0 false .nil .nil), 2,
        129⟩ : MasterT) =
      .error "attempt to subtract with overflow" := by
    show MTree.iterCollectDbg 2 (2 + 1)
      (MTree.iterPush 2
        (.node 10 30 0 0 true .nil (.node 20 20 0 0 false .nil .nil)) 2 [])
      [] = _
    rw [MTree.iterPush_unfold 2 []
        (show MTree.setup
            (.node 10 30 0 0 true .nil (.node 20 20 0 0 false .nil .nil))
            2 =
          .node 10 30 0 1 false (.node 20 20 0 0 true .nil .nil) .nil from
            by decide),
      MTree.iterPush_unfold 1 _
        (show MTree.setup (.node 20 20 0 0 true .nil .nil) 2 =
          .node 20 20 0 1 false .nil .nil from by decide),
      MTree.iterPush_nil]
    rfl
  rw [e1, e2, e3, e4]
  exact ⟨rfl, rfl, rfl, rfl⟩

/-- C9 counterexample: in a release build (debug assertions off), calling
split with index 2 on a one-element tree — a precondition violation — is
not checked and does not abort: it returns Except.ok, and the right part
carries the wrapped length 2^64 - 1.  This refutes the claim that every
precondition violation aborts in every build mode. -/
theorem C9_counterexample_release_split :
    (splitChecked false (insertM (mkEmpty 0) 0 7) 2).isOk = true ∧
    (splitChecked false (insertM (mkEmpty 0) 0 7) 2).toOption.map
      (fun pr => pr.2.len) = some (2 ^ 64 - 1) := by
  have e1 : insertM (mkEmpty 0) 0 7 =
      ⟨.node 7 7 0 0 false .nil .nil, 1, 0⟩ := by
    show (⟨(MTree.insertT .nil 0 0 7 0).1, 0 + 1,
      (MTree.insertT .nil 0 0 7 0).2⟩ : MasterT) = _
    rw [MTree.insertT_nil]
  have e2 : MTree.splitT (.node 7 7 0 0 false .nil .nil) 1 2 =
      (.node 7 7 0 0 false .nil .nil, .nil) := by
    rw [MTree.splitT_unfold 2
        (show MTree.setup (.node 7 7 0 0 false .nil .nil) 1 =
          .node 7 7 0 0 false .nil .nil from rfl),
      if_neg (show ¬ (2 : Nat) = 0 from by decide),
      if_neg (show ¬ (2 : Nat) = 1 from by decide),
      if_pos (show (0 : Nat) < 2 from by decide),
      show MTree.splitT .nil 0 1 = (.nil, .nil) from by rw [MTree.splitT]]
    decide
  rw [e1]
  have e3 : splitChecked false
      (⟨.node 7 7 0 0 false .nil .nil, 1, 0⟩ : MasterT) 2 =
      .ok (⟨.node 7 7 0 0 false .nil .nil, 2, 0⟩,
        ⟨.nil, 2 ^ 64 - 1, 0⟩) := by
    rw [splitChecked, if_neg (by decide), e2]
    rfl
  rw [e3]
  exact ⟨rfl, rfl⟩

/-- C9 amended: the boundary range checks — split and insert index up to
len, remove and the index operator index below len, the prod/apply bound
asserts — are compiled only into debug builds; the length-overflow
checked_add on merge and insert aborts in every build mode; an
out-of-range split in a release build is not caught at all and returns
normally; while out-of-range remove and indexing on a well-formed tree
abort in every build mode, in release via the unwrap/unreachable paths
hit during descent rather than via the range check. -/
theorem C9_amended_build_mode_checks (t u : MasterT) (i a b : Nat)
    (x lz : Int) (dbg : Bool) :
    (¬ i ≤ t.len →
      (splitChecked true t i).isOk = false ∧
      (insertChecked true t i x).isOk = false) ∧
    (¬ i < t.len →
      (removeChecked true t i).isOk = false ∧
      (indexChecked true t i).isOk = false) ∧
    (¬ (a ≤ t.len ∧ b ≤ t.len ∧ a ≤ b) →
      (prodCheckedDbg t a b).isOk = false ∧
      (applyCheckedDbg t a b lz).isOk = false) ∧
    (t.len + u.len ≥ USIZE → (mergeChecked dbg t u).isOk = false) ∧
    (t.len + 1 ≥ USIZE → (insertChecked dbg t i x).isOk = false) ∧
    (wfM t = true → t.len ≤ i →
      (removeChecked dbg t i).isOk = false ∧
      (indexChecked dbg t i).isOk = false) ∧
    (splitChecked false t i).isOk = true := by
  refine ⟨?_, ?_, ?_, ?_, ?_, ?_, ?_⟩
  · intro h
    constructor
    · rw [splitChecked, if_pos ⟨rfl, h⟩]
      rfl
    · rw [insertChecked, if_pos ⟨rfl, h⟩]
      rfl
  · intro h
    constructor
    · rw [removeChecked, if_pos ⟨rfl, h⟩]
      rfl
    · rw [indexChecked, if_pos ⟨rfl, h⟩]
      rfl
  · intro h
    constructor
    · rw [prodCheckedDbg, if_pos h]
      rfl
    · rw [applyCheckedDbg, if_pos h]
      rfl
  · intro h
    rw [mergeChecked, if_pos h]
    rfl
  · intro h
    rw [insertChecked]
    by_cases hd : dbg = true ∧ ¬ i ≤ t.len
    · rw [if_pos hd]
      rfl
    · rw [if_neg hd, if_pos h]
      rfl
  · intro hwf hle
    rw [wfM_iff] at hwf
    obtain ⟨hw1, hw2⟩ := hwf
    constructor
    · by_cases hd : dbg = true ∧ ¬ i < t.len
      · rw [removeChecked, if_pos hd]
        rfl
      · rw [removeChecked, if_neg hd]
        by_cases hr : t.root = MTree.nil
        · rw [if_pos hr]
          rfl
        · rw [if_neg hr, MTree.removeE_oob t.root t.len i t.rng hw1 hw2 hle]
          rfl
    · by_cases hd : dbg = true ∧ ¬ i < t.len
      · rw [indexChecked, if_pos hd]
        rfl
      · rw [indexChecked, if_neg hd]
        by_cases hr : t.root = MTree.nil
        · rw [if_pos hr]
          rfl
        · rw [if_neg hr, MTree.indexE_oob t.root t.len i hw1 hw2 hle]
          rfl
  · rw [splitChecked, if_neg (by simp)]
    rfl

theorem C9_amended_witness :
    (splitChecked true (mkEmpty 0) 1).isOk = false ∧
    (removeChecked false
      (⟨.node 7 7 0 0 false .nil .nil, 1, 0⟩ : MasterT) 2).isOk = false ∧
    (indexChecked false
      (⟨.node 7 7 0 0 false .nil .nil, 1, 0⟩ : MasterT) 2).isOk = false ∧
    (mergeChecked false (⟨.nil, 2 ^ 64 - 1, 0⟩ : MasterT)
      (⟨.nil, 2 ^ 64 - 1, 0⟩ : MasterT)).isOk = false ∧
    (insertChecked false (⟨.nil, 2 ^ 64 - 1, 0⟩ : MasterT) 0 5).isOk =
      false ∧
    (splitChecked false
      (⟨.node 7 7 0 0 false .nil .nil, 1, 0⟩ : MasterT) 2).isOk = true :=
  ⟨((C9_amended_build_mode_checks (mkEmpty 0) (mkEmpty 0) 1 0 0 0 0
      true).1 (by decide)).1,
    ((C9_amended_build_mode_checks
      (⟨.node 7 7 0 0 false .nil .nil, 1, 0⟩ : MasterT) (mkEmpty 0) 2 0 0
      0 0 false).2.2.2.2.2.1 (by decide) (by decide)).1,
    ((C9_amended_build_mode_checks
      (⟨.node 7 7 0 0 false .nil .nil, 1, 0⟩ : MasterT) (mkEmpty 0) 2 0 0
      0 0 false).2.2.2.2.2.1 (by decide) (by decide)).2,
    (C9_amended_build_mode_checks (⟨.nil, 2 ^ 64 - 1, 0⟩ : MasterT)
      (⟨.nil, 2 ^ 64 - 1, 0⟩ : MasterT) 0 0 0 5 0 false).2.2.2.1
      (by decide),
    (C9_amended_build_mode_checks (⟨.nil, 2 ^ 64 - 1, 0⟩ : MasterT)
      (⟨.nil, 2 ^ 64 - 1, 0⟩ : MasterT) 0 0 0 5 0 false).2.2.2.2.1
      (by decide),
    (C9_amended_build_mode_checks
      (⟨.node 7 7 0 0 false .nil .nil, 1, 0⟩ : MasterT) (mkEmpty 0) 2 0 0
      0 0 false).2.2.2.2.2.2⟩

/-- C10: the generator state is never zero: the compile-time seed is
forced nonzero whatever the hashed bytes are, and every state reachable
from it through gen, choose and make (both the advanced parent and the
fork handed to split) stays nonzero and below 2^64, so no generator ever
degenerates into the constant-zero stream. -/
theorem C10_rng_nonzero (bytes : List Nat) (s : Nat)
    (h : RngReach bytes s) : s ≠ 0 ∧ s < 2 ^ 64 := by
  induction h with
  | seed => exact rngSeed_props bytes
  | genStep _ ih => exact rngGen_props _ ih.2 ih.1
  | chooseStep _ ih => exact rngGen_props _ ih.2 ih.1
  | makeFork _ ih =>
      obtain ⟨h1, h2, _, _⟩ := rngMake_props _ ih.2 ih.1
      exact ⟨h1, h2⟩
  | makeParent _ ih =>
      obtain ⟨_, _, h3, h4⟩ := rngMake_props _ ih.2 ih.1
      exact ⟨h3, h4⟩

theorem C10_witness : rngSeed [] ≠ 0 ∧ rngSeed [] < 2 ^ 64 :=
  C10_rng_nonzero [] (rngSeed []) RngReach.seed

end MasterTreeModel
